import Mathlib

/-!
# The rcc point index: `parray.c` and `rtree.c`

A shallow embedding of the point container (`parray.c`) and of the binary
bounding-volume tree (`rtree.c`), followed by theorems about them.

Conventions of the embedding.

* Coordinates are C `double`s in the source; here they are exact rationals, so
  rounding, infinities and NaN are outside the model.
* A value of type `rtree` stands for a C `rtree*`: either `null` or an owned
  node.  Nodes are never shared, so a pointer into a tree is the path that
  leads to it from the root (`false` for `sub1`, `true` for `sub2`).
* A `point*` or `rect*` argument that the source tests against `NULL` is an
  `Option`.
* Dereferencing a null pointer has no result: `none`, or `fault.nullptr`
  where running out of fuel has to be told apart.
* `point.h` and `rect.h` are not part of the sources at hand.  `peq` and
  `setxyz` follow the specification; `pinr`, `rinr` and `rszsum` are
  parameters, bundled in `rectlib`.
* An `int` is 32 bits wide.  A `double` that is converted to `int` and does
  not fit gives the least `int`, as it does on x86 processors (`dtoi`).
* Memory from `malloc` or `realloc` holds arbitrary contents until it is
  written.  Where the source reads such memory the contents are a parameter:
  `hdr` and `junk` in `mergepaCall`, the blocks `j1` and `j2` in the split
  rule of `subrtRun`.  The function `subrt` is the run of `subrtRun` in which
  every block is zero-filled (`subrt_run`).
-/

namespace Rcc

/-! ## Points and rectangles -/

/-- A point of `point.h`: the three coordinates `x`, `y`, `z`. -/
structure point where
  x : ℚ
  y : ℚ
  z : ℚ
deriving DecidableEq, Repr

/-- Modelled from the spec: `setxyz` of `point.h` is not among the sources; it
stores the three given coordinates in a point. -/
def setxyz (x y z : ℚ) : point := ⟨x, y, z⟩

/-- Modelled from the spec: `peq` of `point.h` is not among the sources;
"equality is exact coordinate match". -/
def peq (a b : point) : Bool :=
  decide (a.x = b.x) && decide (a.y = b.y) && decide (a.z = b.z)

/-- A rectangle of `rect.h`: two corner points, not assumed to be ordered. -/
structure rect where
  p1 : point
  p2 : point
deriving DecidableEq, Repr

/-- The functions of `rect.h` that `rtree.c` calls.  Their bodies are not among
the sources, so every definition below takes them as a parameter:
`pinr box p` is the point-in-rectangle test, `rinr mbr box` the
rectangle-against-rectangle test and `rszsum mbr p` the cost of growing `mbr`
to hold `p`. -/
structure rectlib where
  pinr : rect → point → Bool
  rinr : rect → rect → Bool
  rszsum : rect → point → ℚ

/-! ## The point container (`parray.c`) -/

/-- The struct `parray`: `points` is the list, `len` is its length. -/
abbrev parray := List point

/-- The function `lenpa`: the stored length. -/
def lenpa (pa : parray) : Nat := pa.length

/-- The function `addpa` for a present container and point: the array grows by
one slot and the point is written into the last slot. -/
def addpa (pa : parray) (p : point) : parray := pa ++ [p]

/-- The body of the `if` in `rempa`:
`memmove(&pa->points[i], &pa->points[--pa->len], sizeof(point))`.  The last
live element is copied over slot `i` and the length drops by one. -/
def swapout (pa : parray) (i : Nat) : parray :=
  match pa.getLast? with
  | none => pa
  | some l => (pa.set i l).dropLast

/-- The `for` loop of `rempa`, started at index `i`.  The first argument bounds
the number of iterations; `pa[i]?` is `none` exactly when `i < pa->len` fails.
After a removal the index still advances. -/
def rempaLoop (p : point) : Nat → Nat → parray → parray
  | 0, _, pa => pa
  | fuel + 1, i, pa =>
    match pa[i]? with
    | none => pa
    | some q =>
      if peq p q then rempaLoop p fuel (i + 1) (swapout pa i)
      else rempaLoop p fuel (i + 1) pa

/-- The function `rempa` for a present container and point.  The loop runs at
most `len` times, because the index grows and the length never does. -/
def rempa (pa : parray) (p : point) : parray :=
  rempaLoop p pa.length 0 pa

/-- The array that `mergepa` is to build: a copy of `pa1` followed by a copy of
`pa2`. -/
def mergepa (pa1 pa2 : parray) : parray := pa1 ++ pa2

/-- The call `memcpy(&dst[off], src, n * sizeof(point))`: the slots `off`, ...,
`off + n - 1` of `dst` are overwritten with the first `n` elements of `src`. -/
def memcpyAt (dst : List point) (off : Nat) (src : List point) (n : Nat) : List point :=
  dst.take off ++ src.take n ++ dst.drop (off + n)

/-- A pointer value found in memory that was never written: null, or some bit
pattern that is not the address of a block. -/
inductive rawptr where
  | nil : rawptr
  | wild : rawptr
deriving DecidableEq, Repr

/-- The function `mergepa`, statement by statement.  The header `sumpa` comes
from `malloc`, and the source passes its field `sumpa->points` to `realloc`
without ever writing it: `hdr` is what the field holds.  When that is not the
null pointer, `realloc` is handed a pointer it never gave out and the call
has no result (`none`).  When it is null, `realloc` yields a new block of
`len` slots, whose contents before the copies are arbitrary: slot `i` holds
`junk i`.  The result gives the two argument containers after the call, which
the function only reads, and the array of the returned container, whose
`len` field is `pa1->len + pa2->len`. -/
def mergepaCall (hdr : rawptr) (junk : Nat → point) (pa1 pa2 : parray) :
    Option (parray × parray × parray) :=
  match hdr with
  | rawptr.wild => none
  | rawptr.nil =>
    some (pa1, pa2,
      memcpyAt (memcpyAt ((List.range (pa1.length + pa2.length)).map junk) 0 pa1 pa1.length)
        pa1.length pa2 pa2.length)

/-! ## The tree (`rtree.c`) -/

/-- A value of C type `rtree*`: `null`, or a node with its container `pa`, its
rectangle `mbr`, the stored `leaf` flag and the two child pointers. -/
inductive rtree where
  | null : rtree
  | node (pa : parray) (mbr : rect) (leaf : Bool) (sub1 sub2 : rtree) : rtree
deriving DecidableEq, Repr

namespace rtree

/-- The test `t == NULL`. -/
def isNull : rtree → Bool
  | null => true
  | node _ _ _ _ _ => false

/-- The read `t->mbr`, which has no result on a null pointer. -/
def mbrOf : rtree → Option rect
  | null => none
  | node _ mbr _ _ _ => some mbr

end rtree

open rtree

/-- The threshold `static int maxsdev = 30`. -/
def maxsdev : ℚ := 30

/-- The opening statement of `putrt`, `remrt` and `psinrrt`:
`if (tree->sub1 == NULL && tree->sub2 == NULL) tree->leaf = 1;`
gives the value of the flag afterwards. -/
def rederive (leaf : Bool) (sub1 sub2 : rtree) : Bool :=
  if sub1.isNull && sub2.isNull then true else leaf

/-- The function `putrt`.  The result is the tree after the call; the C
function has no `return` statement. -/
def putrt (R : rectlib) : rtree → Option point → Option rtree
  | null, _ => none
  | node pa mbr leaf sub1 sub2, p =>
    match p with
    | none => some (node pa mbr (rederive leaf sub1 sub2) sub1 sub2)
    | some q =>
      if rederive leaf sub1 sub2 then
        some (node (addpa pa q) mbr (rederive leaf sub1 sub2) sub1 sub2)
      else
        match sub1.mbrOf, sub2.mbrOf with
        | some m1, some m2 =>
          if R.rszsum m1 q ≥ R.rszsum m2 q then
            match putrt R sub1 p with
            | none => none
            | some s => some (node pa mbr (rederive leaf sub1 sub2) s sub2)
          else
            match putrt R sub2 p with
            | none => none
            | some s => some (node pa mbr (rederive leaf sub1 sub2) sub1 s)
        | _, _ => none

/-- The `for` loop in the leaf case of `remrt`, started at index `i`: whenever
slot `i` holds a point equal to `p`, `rempa` runs on the whole container, and
the index advances either way. -/
def remrtLoop (p : point) : Nat → Nat → parray → parray
  | 0, _, pa => pa
  | fuel + 1, i, pa =>
    match pa[i]? with
    | none => pa
    | some q =>
      if peq p q then remrtLoop p fuel (i + 1) (rempa pa p)
      else remrtLoop p fuel (i + 1) pa

/-- The function `remrt`.  The result is the tree after the call. -/
def remrt : rtree → Option point → Option rtree
  | null, _ => none
  | node pa mbr leaf sub1 sub2, p =>
    match p with
    | none => some (node pa mbr (rederive leaf sub1 sub2) sub1 sub2)
    | some q =>
      if rederive leaf sub1 sub2 then
        some (node (remrtLoop q pa.length 0 pa) mbr (rederive leaf sub1 sub2) sub1 sub2)
      else
        match remrt sub1 p with
        | none => none
        | some s1 =>
          match remrt sub2 p with
          | none => none
          | some s2 => some (node pa mbr (rederive leaf sub1 sub2) s1 s2)

/-- A value with its fractional part dropped (rounding toward zero). -/
def dtrunc (q : ℚ) : Int := Int.tdiv q.num q.den

/-- Whether an integer is a value of the type `int`, which is 32 bits wide. -/
def intFits (k : Int) : Bool := decide (-2147483648 ≤ k) && decide (k ≤ 2147483647)

/-- The conversion of a `double` to `int`: the fractional part is dropped.  When
the result is not a value of `int` the conversion is undefined in C; what is
taken here is what the conversion instruction of x86 processors delivers in
that case, the least value of `int`. -/
def dtoi (q : ℚ) : Int := if intFits (dtrunc q) then dtrunc q else -2147483648

/-- One iteration of the first loop of `sdevrt` on the point `q`.  The state is
`(total, maxp, minp)`; `total` is an `int`, so `total += q.z` converts the sum
back to an integer. -/
def sdevStep (s : Int × point × point) (q : point) : Int × point × point :=
  (dtoi ((s.1 : ℚ) + q.z),
   if q.z > s.2.1.z then q else s.2.1,
   if q.z < s.2.2.z then q else s.2.2)

/-- The value `mean = total / tree->pa.len` of `sdevrt`: both operands are
`int`, so the quotient is the integer quotient (rounded toward zero). -/
def sdevMean (pa : parray) (first : point) : ℚ :=
  ((Int.tdiv (pa.foldl sdevStep (0, first, first)).1 (pa.length : Int) : Int) : ℚ)

/-- The value `sumsqr` of `sdevrt` after its second loop. -/
def sdevSumsqr (pa : parray) (mean : ℚ) : ℚ :=
  pa.foldl (fun acc q => acc + (q.z - mean) ^ 2) 0

/-- The function `sdevrt`.  The first component is the SQUARE of the returned
`double`: the source returns `sqrt(sumsqr / (len - 1))`, and the embedding
keeps the radicand, which is rational.  The other two components are the
contents of the out-parameters `max` and `min` after the call. -/
def sdevrt : rtree → Option point → Option point → Option (ℚ × Option point × Option point)
  | null, _, _ => none
  | node pa _ leaf _ _, max, min =>
    if pa.length ≤ 1 || !leaf then some (0, max, min)
    else
      match pa with
      | [] => some (0, max, min)
      | first :: _ =>
        let s := pa.foldl sdevStep (0, first, first)
        let out : Option point × Option point :=
          match max, min with
          | some _, some _ =>
            (some (setxyz s.2.1.x s.2.1.y s.2.1.z), some (setxyz s.2.2.x s.2.2.y s.2.2.z))
          | _, _ => (max, min)
        some (sdevSumsqr pa (sdevMean pa first) / ((pa.length : ℚ) - 1), out.1, out.2)

/-- What can keep `subrt` from returning. -/
inductive fault where
  | nullptr : fault
  | nofuel : fault
deriving DecidableEq, Repr

deriving instance DecidableEq for Except

/-- The point (0,0,0). -/
def zeroPoint : point := ⟨0, 0, 0⟩

/-- A new child of `subrt` when the block from `malloc` is zero-filled: the
source writes only the rectangle, by the two `setxyz` calls guarded by
`if (max)` (resp. `if (min)`), and never the fields `leaf`, `sub1`, `sub2`,
`pa.len` and `pa.points`, which `putrt` goes on to read.  Blocks of other
contents are covered by `seedChild` and `subrtRun`. -/
def freshChild (seed : Option point) : rtree :=
  match seed with
  | some m => node [] ⟨setxyz m.x m.y m.z, setxyz m.x m.y m.z⟩ false null null
  | none => node [] ⟨zeroPoint, zeroPoint⟩ false null null

/-- The reinsertion loop of `subrt`: `putrt(tree, &tree->pa.points[i])` for
every index in turn.  The node is a branch while the loop runs, so `putrt`
never writes to `tree->pa` and the points read are the original ones. -/
def reinsert (R : rectlib) : rtree → List point → Option rtree
  | t, [] => some t
  | t, q :: qs =>
    match putrt R t (some q) with
    | none => none
    | some t1 => reinsert R t1 qs

/-- The function `subrt`.  The first argument bounds the depth of the recursion
into newly made children.  The result is the tree after the call and the
returned flag (`true` for 1, `false` for 0).  The comparison
`sdev > maxsdev` is made on the squares, both sides being non-negative.  The
blocks that `malloc` hands out for new children are zero-filled here
(`freshChild`); `subrtRun` has the runs for blocks of any contents. -/
def subrt (R : rectlib) : Nat → rtree → Except fault (rtree × Bool)
  | 0, _ => .error .nofuel
  | _ + 1, null => .error .nullptr
  | fuel + 1, node pa mbr leaf sub1 sub2 =>
    if leaf then
      match sdevrt (node pa mbr leaf sub1 sub2) (some zeroPoint) (some zeroPoint) with
      | none => .error .nullptr
      | some (sq, max, min) =>
        if sq > maxsdev ^ 2 then
          match reinsert R (node pa mbr false (freshChild max) (freshChild min)) pa with
          | none => .error .nullptr
          | some null => .error .nullptr
          | some (node _ mbr1 leaf1 s1 s2) =>
            match subrt R fuel s1 with
            | .error e => .error e
            | .ok (s1a, _) =>
              match subrt R fuel s2 with
              | .error e => .error e
              | .ok (s2a, _) => .ok (node [] mbr1 leaf1 s1a s2a, true)
        else .ok (node pa mbr leaf sub1 sub2, false)
    else
      match subrt R fuel sub1 with
      | .error e => .error e
      | .ok (s1a, _) =>
        match subrt R fuel sub2 with
        | .error e => .error e
        | .ok (s2a, _) => .ok (node pa mbr leaf s1a s2a, false)

/-- The fields of a block from `malloc(sizeof(rtree))` that `subrt` never
writes before `putrt` and `subrt` read them: whatever the block holds. -/
structure rawnode where
  pa : parray
  leaf : Bool
  sub1 : rtree
  sub2 : rtree

/-- A block that happens to be zero-filled. -/
def zeroBlock : rawnode := ⟨[], false, null, null⟩

/-- A new child of `subrt` made from the block `j`: only its rectangle is
written, by the two `setxyz` calls with the seed `m`. -/
def seedChild (j : rawnode) (m : point) : rtree :=
  node j.pa ⟨setxyz m.x m.y m.z, setxyz m.x m.y m.z⟩ j.leaf j.sub1 j.sub2

/-- The function `resizert`: the body is `return 0;`.  The result is the tree
after the call and the returned value. -/
def resizert (t : rtree) : rtree × Int := (t, 0)

/-- The function `pfindrt`.  The returned pointer is given as the path from the
root to the node found; `none` is `NULL`. -/
def pfindrt : rtree → Option point → Option (List Bool)
  | null, _ => none
  | node pa _ leaf sub1 sub2, p =>
    match p with
    | none => none
    | some q =>
      if leaf then
        if pa.any (fun r => peq r q) then some [] else none
      else
        match pfindrt sub1 p with
        | some path => some (false :: path)
        | none =>
          match pfindrt sub2 p with
          | some path => some (true :: path)
          | none => none

/-- The function `psinrrt`.  The result is the tree after the call (the flag
may have been rewritten) and the returned buffer, `none` for `NULL`.  A buffer
is the list of its elements: the header `(numpin, -1, -1)` followed by the
accepted points.  In the branch case the source reads `subNbuf[0].x` from the
buffer of each visited child, which fails when that buffer is `NULL`; the
block `sumbuf` it then assembles is never returned, and control reaches the
final `return NULL`.  The byte counts passed to `malloc`, `realloc` and
`memcpy` are not modelled. -/
def psinrrt (R : rectlib) : rtree → Option rect → Option (rtree × Option (List point))
  | null, _ => none
  | node pa mbr leaf sub1 sub2, qbox =>
    match qbox with
    | none => some (node pa mbr (rederive leaf sub1 sub2) sub1 sub2, none)
    | some q =>
      if rederive leaf sub1 sub2 then
        some (node pa mbr (rederive leaf sub1 sub2) sub1 sub2,
          some (setxyz (((pa.filter (R.pinr q)).length : ℚ) + 1) (-1) (-1) :: pa.filter (R.pinr q)))
      else
        match sub1.mbrOf, sub2.mbrOf with
        | some m1, some m2 =>
          match (if R.rinr m1 q then
                  (match psinrrt R sub1 qbox with
                   | some (s, some _) => some s
                   | _ => none)
                 else some sub1) with
          | none => none
          | some s1 =>
            match (if R.rinr m2 q then
                    (match psinrrt R sub2 qbox with
                     | some (s, some _) => some s
                     | _ => none)
                   else some sub2) with
            | none => none
            | some s2 => some (node pa mbr (rederive leaf sub1 sub2) s1 s2, none)
        | _, _ => none

/-- The function `bputrt`.  The batch is given by the memory at `p`, element by
element, of which the first `n` are copied behind the container (the count
`n` is taken to be non-negative).  The result is the tree after the call; the
values returned by `subrt` and `resizert` are dropped, as in the source. -/
def bputrt (R : rectlib) (fuel : Nat) : rtree → (Nat → point) → Nat → Except fault rtree
  | null, _, _ => .error .nullptr
  | node pa mbr leaf sub1 sub2, p, n =>
    if leaf then
      match subrt R fuel (node (pa ++ (List.range n).map p) mbr leaf sub1 sub2) with
      | .error e => .error e
      | .ok (t1, _) => .ok (resizert t1).1
    else .ok (node pa mbr leaf sub1 sub2)

/-- The number of whole points that fit into a block of `bytes` bytes, `size`
being `sizeof(point)`. -/
def slots (size bytes : Nat) : Nat := bytes / size

/-- The leaf case of `psinrrt` with the sizes of its blocks taken into account;
`size` is `sizeof(point)`, which `point.h` fixes.  The block comes from
`malloc(sizeof(point) * tree->pa.len + 1)`; the loop writes the accepted
points to the slots 1, ..., `numpin` and the header goes to slot 0, so the
highest slot written is the number of accepted points.  A write outside the
block has no result (`none`).  The block is then cut to `numpin` BYTES by
`realloc(buf, numpin)`, `numpin` being the number of accepted points plus
one: what is returned are the elements that still lie inside it. -/
def psinrrtBlock (size : Nat) (R : rectlib) (pa : parray) (q : rect) : Option (List point) :=
  if (pa.filter (R.pinr q)).length < slots size (size * pa.length + 1) then
    some ((setxyz (((pa.filter (R.pinr q)).length : ℚ) + 1) (-1) (-1) :: pa.filter (R.pinr q)).take
      (slots size ((pa.filter (R.pinr q)).length + 1)))
  else none

/-! ## Observations on trees -/

/-- The points held by the leaves of a tree, from left to right.  A node counts
as a leaf the way `putrt`, `remrt` and `psinrrt` decide it: it has no children
or its flag is set. -/
def leafPoints : rtree → List point
  | null => []
  | node pa _ leaf sub1 sub2 =>
    if rederive leaf sub1 sub2 then pa else leafPoints sub1 ++ leafPoints sub2

/-- The total point count of a tree, summed over its leaves. -/
def countrt (t : rtree) : Nat := (leafPoints t).length

/-- A tree that the recursive operations can walk: it is not null, and every
node that is not a leaf (no children, or flag set) has two such trees as
children.  The stored flag of a childless node may be stale. -/
def walkable : rtree → Bool
  | null => false
  | node _ _ leaf sub1 sub2 => rederive leaf sub1 sub2 || (walkable sub1 && walkable sub2)

/-- A well-formed tree: every node is either a leaf, with no children and the
flag set, or a branch, with the flag clear and two well-formed children. -/
def wellFormed : rtree → Bool
  | null => false
  | node _ _ leaf sub1 sub2 =>
    (leaf && sub1.isNull && sub2.isNull) || (!leaf && wellFormed sub1 && wellFormed sub2)

/-- The node a path leads to (`false` is `sub1`, `true` is `sub2`). -/
def subtreeAt : rtree → List Bool → rtree
  | t, [] => t
  | null, _ :: _ => null
  | node _ _ _ sub1 sub2, b :: path => subtreeAt (if b then sub2 else sub1) path

/-- The paths of the nodes that `pfindrt` scans, from left to right: the nodes
whose flag is set and that are reached through nodes whose flag is clear. -/
def leafPaths : rtree → List (List Bool)
  | null => []
  | node _ _ leaf sub1 sub2 =>
    if leaf then [[]]
    else (leafPaths sub1).map (List.cons false) ++ (leafPaths sub2).map (List.cons true)

/-- The container of a node, empty for the null pointer. -/
def paOf : rtree → parray
  | null => []
  | node pa _ _ _ _ => pa

/-- A tree with every rectangle replaced by `r`: what is left of a tree when
its rectangles are disregarded. -/
def eraseMbr (r : rect) : rtree → rtree
  | null => null
  | node pa _ leaf sub1 sub2 => node pa r leaf (eraseMbr r sub1) (eraseMbr r sub2)

/-- The test by which `putrt` picks `sub1` at a branch whose children have the
rectangles `m1` and `m2`: the cost for `sub1` is at least the cost for `sub2`. -/
def toSub1 (R : rectlib) (m1 m2 : rect) (q : point) : Bool :=
  decide (R.rszsum m1 q ≥ R.rszsum m2 q)

/-- The test `sdev > maxsdev` of `subrt` on a node, made on the squares. -/
def exceeds (t : rtree) : Bool :=
  match sdevrt t (some zeroPoint) (some zeroPoint) with
  | some (sq, _, _) => decide (sq > maxsdev ^ 2)
  | none => false

/-- The runs of `subrt`, whatever `malloc` hands out: `subrtRun R t t1 b` says
that a call on `t` can return with the tree `t1` and the flag `b`.  The three
rules are the three ways through the function: a leaf that is kept, a leaf
that is split (with blocks `j1` and `j2` for the children, of any contents),
and a node whose flag is clear.  The function `subrt` is the run in which
every block is zero-filled. -/
inductive subrtRun (R : rectlib) : rtree → rtree → Bool → Prop where
  | keep (pa : parray) (mbr : rect) (sub1 sub2 : rtree) :
      exceeds (node pa mbr true sub1 sub2) = false →
      subrtRun R (node pa mbr true sub1 sub2) (node pa mbr true sub1 sub2) false
  | split (pa : parray) (mbr : rect) (sub1 sub2 : rtree) (sq : ℚ) (M N : point)
      (j1 j2 : rawnode) (pa1 : parray) (mbr1 : rect) (leaf1 : Bool) (c1 c2 a1 a2 : rtree)
      (f1 f2 : Bool) :
      sdevrt (node pa mbr true sub1 sub2) (some zeroPoint) (some zeroPoint) =
        some (sq, some M, some N) →
      sq > maxsdev ^ 2 →
      reinsert R (node pa mbr false (seedChild j1 M) (seedChild j2 N)) pa =
        some (node pa1 mbr1 leaf1 c1 c2) →
      subrtRun R c1 a1 f1 → subrtRun R c2 a2 f2 →
      subrtRun R (node pa mbr true sub1 sub2) (node [] mbr1 leaf1 a1 a2) true
  | branch (pa : parray) (mbr : rect) (sub1 sub2 a1 a2 : rtree) (f1 f2 : Bool) :
      subrtRun R sub1 a1 f1 → subrtRun R sub2 a2 f2 →
      subrtRun R (node pa mbr false sub1 sub2) (node pa mbr false a1 a2) false

/-- The sum of the absolute heights of the points of a container. -/
def zMass (pa : parray) : ℚ := (pa.map (fun q => |q.z|)).sum

/-- A tree in each of whose flagged nodes the absolute heights add up to less
than 2^31, so that the `int` total of `sdevrt` never leaves its range, there
or in any part of the container. -/
def boundedrt : rtree → Bool
  | null => true
  | node pa _ leaf sub1 sub2 =>
    if leaf then decide (zMass pa < 2147483648) else boundedrt sub1 && boundedrt sub2

/-- A node without children. -/
def childless : rtree → Bool
  | null => false
  | node _ _ _ sub1 sub2 => sub1.isNull && sub2.isNull

/-- The tree `t` with the node at `path` replaced by `new`. -/
def replaceAt : rtree → List Bool → rtree → rtree
  | _, [], new => new
  | null, _ :: _, _ => null
  | node pa mbr leaf sub1 sub2, b :: path, new =>
    if b then node pa mbr leaf sub1 (replaceAt sub2 path new)
    else node pa mbr leaf (replaceAt sub1 path new) sub2

/-- A tree with every container emptied: its shape, its flags and its
rectangles. -/
def erasePa : rtree → rtree
  | null => null
  | node _ mbr leaf sub1 sub2 => node [] mbr leaf (erasePa sub1) (erasePa sub2)

/-- A depth of recursion that suffices for `subrt` on a well-formed tree: one
more than the number of points for a leaf, one more than what the children
need for a branch. -/
def subrtBound : rtree → Nat
  | null => 0
  | node pa _ leaf sub1 sub2 =>
    if leaf then pa.length + 1 else max (subrtBound sub1) (subrtBound sub2) + 1

/-! ## A sample rectangle library -/

/-- Modelled from the spec: `rect.h` is not among the sources.  This sample
follows the words "containment and overlap tests, and a cost of expanding to
include a point": `pinr` is inclusive containment in the box spanned by the
two corners, `rinr` is overlap of the two boxes, and `rszsum` adds up, over
the three axes, the length by which the box has to grow to reach the point.
It serves to run the general definitions on concrete trees. -/
def boxlib : rectlib where
  pinr := fun r p =>
    decide (min r.p1.x r.p2.x ≤ p.x) && decide (p.x ≤ max r.p1.x r.p2.x) &&
    decide (min r.p1.y r.p2.y ≤ p.y) && decide (p.y ≤ max r.p1.y r.p2.y) &&
    decide (min r.p1.z r.p2.z ≤ p.z) && decide (p.z ≤ max r.p1.z r.p2.z)
  rinr := fun a b =>
    decide (min a.p1.x a.p2.x ≤ max b.p1.x b.p2.x) && decide (min b.p1.x b.p2.x ≤ max a.p1.x a.p2.x) &&
    decide (min a.p1.y a.p2.y ≤ max b.p1.y b.p2.y) && decide (min b.p1.y b.p2.y ≤ max a.p1.y a.p2.y) &&
    decide (min a.p1.z a.p2.z ≤ max b.p1.z b.p2.z) && decide (min b.p1.z b.p2.z ≤ max a.p1.z a.p2.z)
  rszsum := fun r p =>
    (max 0 (min r.p1.x r.p2.x - p.x) + max 0 (p.x - max r.p1.x r.p2.x)) +
    (max 0 (min r.p1.y r.p2.y - p.y) + max 0 (p.y - max r.p1.y r.p2.y)) +
    (max 0 (min r.p1.z r.p2.z - p.z) + max 0 (p.z - max r.p1.z r.p2.z))

/-! ## The trees of the concrete scenarios -/

/-- An empty root: a childless node with no points. -/
def emptyRoot : rtree := node [] ⟨zeroPoint, zeroPoint⟩ true null null

/-- The four points of the scenario. -/
def scenarioPoints : List point := [⟨0, 0, 0⟩, ⟨1, 1, 1⟩, ⟨2, 2, 2⟩, ⟨100, 100, 100⟩]

/-- The leaf obtained by inserting the four points into the empty root. -/
def scenarioLeaf : rtree := node scenarioPoints ⟨zeroPoint, zeroPoint⟩ true null null

/-- The tree obtained from `scenarioLeaf` by one call of `subrt` (with
`boxlib`): the three low points are in `sub1`, whose rectangle is the seed
box at the highest point, and the highest point is in `sub2`, whose rectangle
is the seed box at the lowest point. -/
def scenarioTree : rtree :=
  node [] ⟨zeroPoint, zeroPoint⟩ false
    (node [⟨0, 0, 0⟩, ⟨1, 1, 1⟩, ⟨2, 2, 2⟩] ⟨⟨100, 100, 100⟩, ⟨100, 100, 100⟩⟩ true null null)
    (node [⟨100, 100, 100⟩] ⟨⟨0, 0, 0⟩, ⟨0, 0, 0⟩⟩ true null null)

/-- The query box of the scenario. -/
def scenarioBox : rect := ⟨⟨0, 0, 0⟩, ⟨1, 1, 1⟩⟩

/-- A leaf holding the same point twice. -/
def twoCopies : rtree := node [⟨1, 1, 1⟩, ⟨1, 1, 1⟩] ⟨zeroPoint, zeroPoint⟩ true null null

/-- A rectangle library whose cost function returns the same cost for every
rectangle and point, so that every point costs the same for both seeds; the
two tests are those of `boxlib`. -/
def flatlib : rectlib where
  pinr := boxlib.pinr
  rinr := boxlib.rinr
  rszsum := fun _ _ => 0

/-- A childless node holding one point whose stored flag is clear. -/
def staleLeaf : rtree := node [⟨1, 1, 1⟩] ⟨zeroPoint, zeroPoint⟩ false null null

/-- The same node with its flag set. -/
def flaggedLeaf : rtree := node [⟨1, 1, 1⟩] ⟨zeroPoint, zeroPoint⟩ true null null

/-- A batch of points in memory: slot `i` holds `(i, i, i)`. -/
def diagonalBatch (i : Nat) : point := ⟨i, i, i⟩

/-- A block from `malloc` that is not zero-filled: its `pa.len` field holds 1
and its other fields are zero.  The first `addpa` on it asks `realloc` for two
slots and writes its point to the second; the first slot, which nothing
writes, is taken to hold (1,1,1). -/
def strayBlockA : rawnode := ⟨[⟨1, 1, 1⟩], false, null, null⟩

/-- Another such block, whose unwritten slot is taken to hold (100,100,100). -/
def strayBlockB : rawnode := ⟨[⟨100, 100, 100⟩], false, null, null⟩

/-- The tree that `subrt` returns for the leaf of the scenario when `malloc`
hands out `strayBlockA` and `strayBlockB` for the two children. -/
def strayTree : rtree :=
  node [] ⟨zeroPoint, zeroPoint⟩ false
    (node [⟨1, 1, 1⟩, ⟨0, 0, 0⟩, ⟨1, 1, 1⟩, ⟨2, 2, 2⟩]
      ⟨⟨100, 100, 100⟩, ⟨100, 100, 100⟩⟩ true null null)
    (node [⟨100, 100, 100⟩, ⟨100, 100, 100⟩] ⟨⟨0, 0, 0⟩, ⟨0, 0, 0⟩⟩ true null null)

/-- A leaf with two points of height 3000000000, which is not a value of
`int`. -/
def overflowLeaf : rtree :=
  node [⟨0, 0, 3000000000⟩, ⟨0, 0, 3000000000⟩] ⟨zeroPoint, zeroPoint⟩ true null null

/-! ## Reference definitions, following the specification -/

/-- The dispersion of the specification, squared: the sum of the squared deviations
from the exact arithmetic mean, divided by `count - 1`, and 0 for fewer than
two values. -/
def besselVar (zs : List ℚ) : ℚ :=
  if zs.length ≤ 1 then 0
  else (zs.map (fun z => (z - zs.sum / (zs.length : ℚ)) ^ 2)).sum / ((zs.length : ℚ) - 1)

/-- The tight bounding box of the specification, for a non-empty list of points: the
corner of the least and the corner of the greatest coordinates. -/
def bbox : List point → Option rect
  | [] => none
  | q :: qs =>
    some (qs.foldl (fun r a =>
      ⟨⟨min r.p1.x a.x, min r.p1.y a.y, min r.p1.z a.z⟩,
       ⟨max r.p2.x a.x, max r.p2.y a.y, max r.p2.z a.z⟩⟩) ⟨q, q⟩)

/-- A cost function tells seeds apart when a point is strictly cheaper to
place in the degenerate box at itself than in the degenerate box at a point
of another height. -/
def separates (R : rectlib) : Prop :=
  ∀ a b : point, a.z ≠ b.z → R.rszsum ⟨a, a⟩ a < R.rszsum ⟨b, b⟩ a

/-! ## Lemmas and theorems -/

theorem peq_iff (a b : point) : peq a b = true ↔ a = b := by
  cases a; cases b; simp [peq, and_assoc]

theorem peq_self (a : point) : peq a a = true := (peq_iff a a).2 rfl

theorem peq_false_iff (a b : point) : peq a b = false ↔ a ≠ b := by
  rw [← Bool.not_eq_true, peq_iff]

theorem rederive_idem (leaf : Bool) (s1 s2 : rtree) :
    rederive (rederive leaf s1 s2) s1 s2 = rederive leaf s1 s2 := by
  unfold rederive; split <;> simp_all

theorem rederive_false (leaf : Bool) (s1 s2 : rtree) (h : rederive leaf s1 s2 = false) :
    leaf = false ∧ (s1.isNull && s2.isNull) = false := by
  unfold rederive at h
  split at h
  · cases h
  · rename_i hn
    exact ⟨h, by simpa using hn⟩

theorem rederive_node_left (leaf : Bool) (s1 s2 : rtree) (h : s1.isNull = false) :
    rederive leaf s1 s2 = leaf := by
  simp [rederive, h]

theorem rederive_node_right (leaf : Bool) (s1 s2 : rtree) (h : s2.isNull = false) :
    rederive leaf s1 s2 = leaf := by
  simp [rederive, h]

theorem isNull_of_mbrOf (t : rtree) (m : rect) (h : t.mbrOf = some m) : t.isNull = false := by
  cases t with
  | null => simp [mbrOf] at h
  | node pa mbr leaf s1 s2 => rfl

theorem putrt_leaf (R : rectlib) (pa : parray) (mbr : rect) (leaf : Bool) (s1 s2 : rtree)
    (q : point) (h : rederive leaf s1 s2 = true) :
    putrt R (node pa mbr leaf s1 s2) (some q) = some (node (pa ++ [q]) mbr true s1 s2) := by
  simp [putrt, h, addpa]

theorem putrt_branch (R : rectlib) (pa : parray) (mbr m1 m2 : rect) (leaf : Bool)
    (s1 s2 : rtree) (q : point) (h : rederive leaf s1 s2 = false)
    (h1 : s1.mbrOf = some m1) (h2 : s2.mbrOf = some m2) :
    putrt R (node pa mbr leaf s1 s2) (some q) =
      if R.rszsum m1 q ≥ R.rszsum m2 q then
        (putrt R s1 (some q)).map (fun s => node pa mbr false s s2)
      else (putrt R s2 (some q)).map (fun s => node pa mbr false s1 s) := by
  simp only [putrt, h, h1, h2, Bool.false_eq_true, if_false]
  by_cases hc : R.rszsum m1 q ≥ R.rszsum m2 q
  · simp only [hc, if_true]
    cases putrt R s1 (some q) <;> rfl
  · simp only [hc, if_false]
    cases putrt R s2 (some q) <;> rfl

theorem putrt_isNode (R : rectlib) (t t1 : rtree) (p : Option point)
    (h : putrt R t p = some t1) : t1.isNull = false := by
  cases t with
  | null => simp [putrt] at h
  | node pa mbr leaf s1 s2 =>
    unfold putrt at h
    split at h
    · cases h; rfl
    · split at h
      · cases h; rfl
      · split at h
        · split at h
          · split at h
            · cases h
            · cases h; rfl
          · split at h
            · cases h
            · cases h; rfl
        · cases h

theorem walkable_mbrOf (t : rtree) (h : walkable t = true) : ∃ m, t.mbrOf = some m := by
  cases t with
  | null => simp [walkable] at h
  | node pa mbr leaf s1 s2 => exact ⟨mbr, rfl⟩

theorem walkable_branch (pa : parray) (mbr : rect) (leaf : Bool) (s1 s2 : rtree)
    (h : walkable (node pa mbr leaf s1 s2) = true) (hl : rederive leaf s1 s2 = false) :
    walkable s1 = true ∧ walkable s2 = true := by
  simpa [walkable, hl] using h

theorem putrt_walkable (R : rectlib) (q : point) (t : rtree) (h : walkable t = true) :
    ∃ t1, putrt R t (some q) = some t1 ∧ walkable t1 = true := by
  induction t with
  | null => simp [walkable] at h
  | node pa mbr leaf s1 s2 ih1 ih2 =>
    cases hl : rederive leaf s1 s2 with
    | true =>
      refine ⟨_, putrt_leaf R pa mbr leaf s1 s2 q hl, ?_⟩
      unfold rederive at hl
      split at hl
      · rename_i hn; simp [walkable, rederive, hn]
      · simp [walkable, rederive, hl]
    | false =>
      obtain ⟨w1, w2⟩ := walkable_branch pa mbr leaf s1 s2 h hl
      obtain ⟨m1, hm1⟩ := walkable_mbrOf s1 w1
      obtain ⟨m2, hm2⟩ := walkable_mbrOf s2 w2
      rw [putrt_branch R pa mbr m1 m2 leaf s1 s2 q hl hm1 hm2]
      split
      · obtain ⟨a, ha, wa⟩ := ih1 w1
        exact ⟨_, by rw [ha]; rfl, by simp [walkable, wa, w2]⟩
      · obtain ⟨a, ha, wa⟩ := ih2 w2
        exact ⟨_, by rw [ha]; rfl, by simp [walkable, wa, w1]⟩

theorem pfindrt_after_putrt (R : rectlib) (p : point) (t t1 : rtree)
    (h : putrt R t (some p) = some t1) : (pfindrt t1 (some p)).isSome = true := by
  induction t generalizing t1 with
  | null => simp [putrt] at h
  | node pa mbr leaf s1 s2 ih1 ih2 =>
    cases hl : rederive leaf s1 s2 with
    | true =>
      rw [putrt_leaf R pa mbr leaf s1 s2 p hl] at h
      cases h
      simp [pfindrt, peq_self]
    | false =>
      cases hm1 : s1.mbrOf with
      | none => simp [putrt, hl, hm1] at h
      | some m1 =>
        cases hm2 : s2.mbrOf with
        | none => simp [putrt, hl, hm1, hm2] at h
        | some m2 =>
          rw [putrt_branch R pa mbr m1 m2 leaf s1 s2 p hl hm1 hm2] at h
          split at h
          · cases hs : putrt R s1 (some p) with
            | none => simp [hs] at h
            | some s =>
              simp only [hs, Option.map_some', Option.some.injEq] at h
              subst h
              have := ih1 s hs
              cases hq : pfindrt s (some p) with
              | none => simp [hq] at this
              | some path => simp [pfindrt, hq]
          · cases hs : putrt R s2 (some p) with
            | none => simp [hs] at h
            | some s =>
              simp only [hs, Option.map_some', Option.some.injEq] at h
              subst h
              have := ih2 s hs
              cases hq : pfindrt s (some p) with
              | none => simp [hq] at this
              | some path =>
                cases hq1 : pfindrt s1 (some p) <;> simp [pfindrt, hq, hq1]

/-- C4. For every tree that `putrt` can walk and every present point `p`, `putrt`
returns, and `pfindrt` called on the resulting tree with `p` returns a node rather than
`NULL`, whichever leaf received `p`. -/
theorem pfindrt_putrt (R : rectlib) (t : rtree) (p : point) (h : walkable t = true) :
    ∃ t1, putrt R t (some p) = some t1 ∧ (pfindrt t1 (some p)).isSome = true := by
  obtain ⟨t1, h1, _⟩ := putrt_walkable R p t h
  exact ⟨t1, h1, pfindrt_after_putrt R p t t1 h1⟩

theorem pfindrt_eq_find (t : rtree) (p : point) :
    pfindrt t (some p) =
      (leafPaths t).find? (fun path => (paOf (subtreeAt t path)).any (fun r => peq r p)) := by
  induction t with
  | null => rfl
  | node pa mbr leaf s1 s2 ih1 ih2 =>
    cases leaf with
    | true =>
      by_cases h : pa.any (fun r => peq r p) = true
      · simp [pfindrt, leafPaths, subtreeAt, paOf, h]
      · simp [pfindrt, leafPaths, subtreeAt, paOf, h]
    | false =>
      simp only [pfindrt, leafPaths, Bool.false_eq_true, if_false, List.find?_append,
        List.find?_map, ih1, ih2]
      have e1 : ((fun path => (paOf (subtreeAt (node pa mbr false s1 s2) path)).any
            (fun r => peq r p)) ∘ List.cons false) =
          (fun path => (paOf (subtreeAt s1 path)).any (fun r => peq r p)) := by
        funext path; simp [subtreeAt]
      have e2 : ((fun path => (paOf (subtreeAt (node pa mbr false s1 s2) path)).any
            (fun r => peq r p)) ∘ List.cons true) =
          (fun path => (paOf (subtreeAt s2 path)).any (fun r => peq r p)) := by
        funext path; simp [subtreeAt]
      rw [e1, e2]
      cases List.find? (fun path => (paOf (subtreeAt s1 path)).any (fun r => peq r p))
          (leafPaths s1) with
      | some a => simp
      | none =>
        cases List.find? (fun path => (paOf (subtreeAt s2 path)).any (fun r => peq r p))
          (leafPaths s2) <;> simp

theorem any_peq_iff (pa : parray) (p : point) :
    pa.any (fun r => peq r p) = true ↔ p ∈ pa := by
  simp only [List.any_eq_true, peq_iff]
  constructor
  · rintro ⟨x, hx, rfl⟩; exact hx
  · intro h; exact ⟨p, h, rfl⟩

theorem wellFormed_cases (pa : parray) (mbr : rect) (leaf : Bool) (s1 s2 : rtree)
    (h : wellFormed (node pa mbr leaf s1 s2) = true) :
    (leaf = true ∧ s1 = null ∧ s2 = null) ∨
      (leaf = false ∧ wellFormed s1 = true ∧ wellFormed s2 = true) := by
  cases leaf with
  | true =>
    left
    cases s1 <;> cases s2 <;> simp_all [wellFormed, isNull]
  | false =>
    right
    simpa [wellFormed] using h

theorem wellFormed_isNode (t : rtree) (h : wellFormed t = true) : t.isNull = false := by
  cases t with
  | null => simp [wellFormed] at h
  | node pa mbr leaf s1 s2 => rfl

theorem pfindrt_isSome_iff (t : rtree) (p : point) (h : wellFormed t = true) :
    (pfindrt t (some p)).isSome = true ↔ p ∈ leafPoints t := by
  induction t with
  | null => simp [wellFormed] at h
  | node pa mbr leaf s1 s2 ih1 ih2 =>
    rcases wellFormed_cases pa mbr leaf s1 s2 h with ⟨hl, h1, h2⟩ | ⟨hl, h1, h2⟩
    · subst hl h1 h2
      by_cases hp : p ∈ pa
      · simp [pfindrt, leafPoints, rederive, isNull, (any_peq_iff pa p).2 hp, hp]
      · have : ¬ (pa.any (fun r => peq r p) = true) := fun e => hp ((any_peq_iff pa p).1 e)
        simp [pfindrt, leafPoints, rederive, isNull, this, hp]
    · subst hl
      have r : rederive false s1 s2 = false :=
        rederive_node_left false s1 s2 (wellFormed_isNode s1 h1)
      simp only [leafPoints, r, Bool.false_eq_true, if_false, List.mem_append,
        ← ih1 h1, ← ih2 h2, pfindrt]
      cases pfindrt s1 (some p) <;> cases pfindrt s2 (some p) <;> simp

theorem pfindrt_eraseMbr (r : rect) (t : rtree) (p : Option point) :
    pfindrt (eraseMbr r t) p = pfindrt t p := by
  induction t with
  | null => rfl
  | node pa mbr leaf s1 s2 ih1 ih2 =>
    cases p with
    | none => rfl
    | some q => simp only [eraseMbr, pfindrt, ih1, ih2]

theorem leafPaths_leaf (t : rtree) (h : wellFormed t = true) (path : List Bool)
    (hp : path ∈ leafPaths t) :
    ∃ pa mbr, subtreeAt t path = node pa mbr true null null := by
  induction t generalizing path with
  | null => simp [wellFormed] at h
  | node pa mbr leaf s1 s2 ih1 ih2 =>
    rcases wellFormed_cases pa mbr leaf s1 s2 h with ⟨hl, h1, h2⟩ | ⟨hl, h1, h2⟩
    · subst hl h1 h2
      simp only [leafPaths, if_true, List.mem_singleton] at hp
      subst hp
      exact ⟨pa, mbr, rfl⟩
    · subst hl
      simp only [leafPaths, Bool.false_eq_true, if_false, List.mem_append, List.mem_map] at hp
      rcases hp with ⟨a, ha, rfl⟩ | ⟨a, ha, rfl⟩
      · simpa [subtreeAt] using ih1 h1 a ha
      · simpa [subtreeAt] using ih2 h2 a ha

/-- C10. On a well-formed tree and a present point `p`: `pfindrt` returns a node exactly
when some leaf holds `p`; what it returns is the first, in `sub1`-before-`sub2` order, of the
leaves whose container holds a point equal to `p`; the node returned is a childless node
with its flag set whose container holds `p`; and two trees that differ only in their
rectangles give the same answer. -/
theorem pfindrt_first_leaf (t : rtree) (p : point) (h : wellFormed t = true) :
    ((pfindrt t (some p)).isSome = true ↔ p ∈ leafPoints t) ∧
    pfindrt t (some p) =
      (leafPaths t).find? (fun path => (paOf (subtreeAt t path)).any (fun r => peq r p)) ∧
    (∀ path, pfindrt t (some p) = some path →
      ∃ pa mbr, subtreeAt t path = node pa mbr true null null ∧ p ∈ pa) ∧
    (∀ r t2, eraseMbr r t2 = eraseMbr r t → pfindrt t2 (some p) = pfindrt t (some p)) := by
  refine ⟨pfindrt_isSome_iff t p h, pfindrt_eq_find t p, ?_, ?_⟩
  · intro path hpath
    rw [pfindrt_eq_find] at hpath
    have hm := List.mem_of_find?_eq_some hpath
    have hs := List.find?_some hpath
    obtain ⟨pa, mbr, e⟩ := leafPaths_leaf t h path hm
    refine ⟨pa, mbr, e, ?_⟩
    rw [e] at hs
    exact (any_peq_iff pa p).1 hs
  · intro r t2 e
    rw [← pfindrt_eraseMbr r t2, e, pfindrt_eraseMbr]

theorem set_perm_cons (a q : point) (xs : List point) (i : Nat) (h : xs[i]? = some q) :
    (q :: xs.set i a).Perm (a :: xs) := by
  induction xs generalizing i with
  | nil => simp at h
  | cons x xs ih =>
    cases i with
    | zero =>
      simp only [List.getElem?_cons_zero, Option.some.injEq] at h
      subst h
      simp only [List.set_cons_zero]
      exact List.Perm.swap a x xs
    | succ j =>
      simp only [List.getElem?_cons_succ] at h
      simp only [List.set_cons_succ]
      exact ((List.Perm.swap x q (xs.set j a)).trans ((ih j h).cons x)).trans
        (List.Perm.swap a x xs)

theorem swapout_perm (pa : parray) (i : Nat) (q : point) (h : pa[i]? = some q) :
    (q :: swapout pa i).Perm pa := by
  rcases List.eq_nil_or_concat pa with hnil | ⟨init, l, hpa⟩
  · subst hnil; simp at h
  · rw [List.concat_eq_append] at hpa
    subst hpa
    have hlast : (init ++ [l]).getLast? = some l := by simp
    simp only [swapout, hlast]
    by_cases hi : i < init.length
    · have hq : init[i]? = some q := by
        rw [List.getElem?_append_left hi] at h; exact h
      rw [List.set_append_left _ _ hi]
      simp only [List.dropLast_concat]
      exact ((set_perm_cons l q init i hq).trans (List.perm_append_singleton l init).symm)
    · have hlen : i < (init ++ [l]).length := by
        by_contra hc
        rw [List.getElem?_eq_none (by omega)] at h
        cases h
      have hi2 : i = init.length := by
        simp only [List.length_append, List.length_singleton] at hlen
        omega
      subst hi2
      have hq : l = q := by
        simpa using h
      subst hq
      rw [List.set_append_right _ _ (le_refl _)]
      simp only [Nat.sub_self, List.set_cons_zero, List.dropLast_concat]
      exact (List.perm_append_singleton l init).symm

theorem rempaLoop_notin (p : point) (fuel i : Nat) (pa : parray) (h : p ∉ pa) :
    rempaLoop p fuel i pa = pa := by
  induction fuel generalizing i with
  | zero => rfl
  | succ n ih =>
    unfold rempaLoop
    cases hq : pa[i]? with
    | none => rfl
    | some q =>
      have hne : peq p q = false := by
        rw [peq_false_iff]
        rintro rfl
        exact h (List.getElem?_mem hq)
      simp only [hne, Bool.false_eq_true, if_false]
      exact ih (i + 1)

theorem remrtLoop_notin (p : point) (fuel i : Nat) (pa : parray) (h : p ∉ pa) :
    remrtLoop p fuel i pa = pa := by
  induction fuel generalizing i with
  | zero => rfl
  | succ n ih =>
    unfold remrtLoop
    cases hq : pa[i]? with
    | none => rfl
    | some q =>
      have hne : peq p q = false := by
        rw [peq_false_iff]
        rintro rfl
        exact h (List.getElem?_mem hq)
      simp only [hne, Bool.false_eq_true, if_false]
      exact ih (i + 1)

theorem mem_before_of_short (p : point) (pa : parray) (i : Nat) (hp : p ∈ pa)
    (hlen : pa.length ≤ i) : ∃ j, j < i ∧ pa[j]? = some p := by
  obtain ⟨j, hj, e⟩ := List.getElem_of_mem hp
  exact ⟨j, by omega, by rw [List.getElem?_eq_getElem hj, e]⟩

theorem rempaLoop_single (p : point) (fuel i : Nat) (pa : parray)
    (hc : pa.count p = 1) (hpre : ∀ j, j < i → pa[j]? ≠ some p) (hf : pa.length ≤ i + fuel) :
    p ∉ rempaLoop p fuel i pa ∧ (rempaLoop p fuel i pa).length + 1 = pa.length := by
  have hmem : p ∈ pa := List.count_pos_iff.1 (by omega)
  induction fuel generalizing i with
  | zero =>
    obtain ⟨j, hj, e⟩ := mem_before_of_short p pa i hmem (by omega)
    exact absurd e (hpre j hj)
  | succ n ih =>
    unfold rempaLoop
    cases hq : pa[i]? with
    | none =>
      have : pa.length ≤ i := by
        by_contra hlt
        rw [List.getElem?_eq_getElem (by omega)] at hq
        cases hq
      obtain ⟨j, hj, e⟩ := mem_before_of_short p pa i hmem this
      exact absurd e (hpre j hj)
    | some q =>
      by_cases hpq : peq p q = true
      · have e : p = q := (peq_iff p q).1 hpq
        subst e
        have hperm := swapout_perm pa i p hq
        have hcnt : (swapout pa i).count p = 0 := by
          have := hperm.count_eq p
          simp only [List.count_cons_self] at this
          omega
        have hnot : p ∉ swapout pa i := List.count_eq_zero.1 hcnt
        have hlen := hperm.length_eq
        simp only [List.length_cons] at hlen
        simp only [hpq, if_true, rempaLoop_notin p n (i + 1) _ hnot]
        exact ⟨hnot, hlen⟩
      · simp only [hpq, Bool.false_eq_true, if_false]
        apply ih (i + 1)
        · intro j hj
          by_cases hji : j = i
          · subst hji
            rw [hq]
            intro e
            simp only [Option.some.injEq] at e
            subst e
            exact hpq (peq_self q)
          · exact hpre j (by omega)
        · omega

theorem rempa_single (p : point) (pa : parray) (hc : pa.count p = 1) :
    p ∉ rempa pa p ∧ (rempa pa p).length + 1 = pa.length :=
  rempaLoop_single p pa.length 0 pa hc (fun j hj => absurd hj (Nat.not_lt_zero j)) (by omega)

theorem remrtLoop_single (p : point) (fuel i : Nat) (pa : parray)
    (hc : pa.count p = 1) (hpre : ∀ j, j < i → pa[j]? ≠ some p) (hf : pa.length ≤ i + fuel) :
    p ∉ remrtLoop p fuel i pa ∧ (remrtLoop p fuel i pa).length + 1 = pa.length := by
  have hmem : p ∈ pa := List.count_pos_iff.1 (by omega)
  induction fuel generalizing i with
  | zero =>
    obtain ⟨j, hj, e⟩ := mem_before_of_short p pa i hmem (by omega)
    exact absurd e (hpre j hj)
  | succ n ih =>
    unfold remrtLoop
    cases hq : pa[i]? with
    | none =>
      have : pa.length ≤ i := by
        by_contra hlt
        rw [List.getElem?_eq_getElem (by omega)] at hq
        cases hq
      obtain ⟨j, hj, e⟩ := mem_before_of_short p pa i hmem this
      exact absurd e (hpre j hj)
    | some q =>
      by_cases hpq : peq p q = true
      · obtain ⟨hnot, hlen⟩ := rempa_single p pa hc
        simp only [hpq, if_true, remrtLoop_notin p n (i + 1) _ hnot]
        exact ⟨hnot, hlen⟩
      · simp only [hpq, Bool.false_eq_true, if_false]
        apply ih (i + 1)
        · intro j hj
          by_cases hji : j = i
          · subst hji
            rw [hq]
            intro e
            simp only [Option.some.injEq] at e
            subst e
            exact hpq (peq_self q)
          · exact hpre j (by omega)
        · omega

/-- The leaf case of `remrt` on a container with at most one copy of `p`. -/
theorem remrtLoop_le_one (p : point) (pa : parray) (hc : pa.count p ≤ 1) :
    p ∉ remrtLoop p pa.length 0 pa ∧
      (remrtLoop p pa.length 0 pa).length + pa.count p = pa.length := by
  by_cases h0 : pa.count p = 0
  · have hnot : p ∉ pa := List.count_eq_zero.1 h0
    rw [remrtLoop_notin p _ _ pa hnot, h0]
    exact ⟨hnot, rfl⟩
  · have h1 : pa.count p = 1 := by omega
    rw [h1]
    exact remrtLoop_single p pa.length 0 pa h1 (fun j hj => absurd hj (Nat.not_lt_zero j))
      (by omega)

theorem remrt_leaf (pa : parray) (mbr : rect) (leaf : Bool) (s1 s2 : rtree) (q : point)
    (h : rederive leaf s1 s2 = true) :
    remrt (node pa mbr leaf s1 s2) (some q) =
      some (node (remrtLoop q pa.length 0 pa) mbr true s1 s2) := by
  simp [remrt, h]

theorem remrt_branch (pa : parray) (mbr : rect) (leaf : Bool) (s1 s2 : rtree) (q : point)
    (h : rederive leaf s1 s2 = false) :
    remrt (node pa mbr leaf s1 s2) (some q) =
      (remrt s1 (some q)).bind (fun a =>
        (remrt s2 (some q)).map (fun b => node pa mbr false a b)) := by
  simp only [remrt, h, Bool.false_eq_true, if_false]
  cases remrt s1 (some q) with
  | none => rfl
  | some a => cases remrt s2 (some q) <;> rfl

theorem remrt_isNode (t t1 : rtree) (p : Option point) (h : remrt t p = some t1) :
    t1.isNull = false := by
  cases t with
  | null => simp [remrt] at h
  | node pa mbr leaf s1 s2 =>
    cases p with
    | none => simp only [remrt, Option.some.injEq] at h; subst h; rfl
    | some q =>
      cases hl : rederive leaf s1 s2 with
      | true => rw [remrt_leaf pa mbr leaf s1 s2 q hl] at h; cases h; rfl
      | false =>
        rw [remrt_branch pa mbr leaf s1 s2 q hl] at h
        cases h1 : remrt s1 (some q) with
        | none => simp [h1] at h
        | some a =>
          cases h2 : remrt s2 (some q) with
          | none => simp [h1, h2] at h
          | some b => simp [h1, h2] at h; subst h; rfl

theorem leafPoints_leaf (pa : parray) (mbr : rect) (leaf : Bool) (s1 s2 : rtree)
    (h : rederive leaf s1 s2 = true) : leafPoints (node pa mbr leaf s1 s2) = pa := by
  simp [leafPoints, h]

theorem leafPoints_branch (pa : parray) (mbr : rect) (leaf : Bool) (s1 s2 : rtree)
    (h : rederive leaf s1 s2 = false) :
    leafPoints (node pa mbr leaf s1 s2) = leafPoints s1 ++ leafPoints s2 := by
  simp [leafPoints, h]

theorem rederive_true_flag (s1 s2 : rtree) : rederive true s1 s2 = true := by
  simp [rederive]

theorem putrt_leafPoints (R : rectlib) (p : point) (t t1 : rtree)
    (h : putrt R t (some p) = some t1) : (leafPoints t1).Perm (p :: leafPoints t) := by
  induction t generalizing t1 with
  | null => simp [putrt] at h
  | node pa mbr leaf s1 s2 ih1 ih2 =>
    cases hl : rederive leaf s1 s2 with
    | true =>
      rw [putrt_leaf R pa mbr leaf s1 s2 p hl] at h
      cases h
      rw [leafPoints_leaf _ _ _ _ _ (rederive_true_flag s1 s2), leafPoints_leaf _ _ _ _ _ hl]
      exact List.perm_append_singleton p pa
    | false =>
      rw [leafPoints_branch _ _ _ _ _ hl]
      cases hm1 : s1.mbrOf with
      | none => simp [putrt, hl, hm1] at h
      | some m1 =>
        cases hm2 : s2.mbrOf with
        | none => simp [putrt, hl, hm1, hm2] at h
        | some m2 =>
          rw [putrt_branch R pa mbr m1 m2 leaf s1 s2 p hl hm1 hm2] at h
          split at h
          · cases hs : putrt R s1 (some p) with
            | none => simp [hs] at h
            | some s =>
              simp only [hs, Option.map_some', Option.some.injEq] at h
              subst h
              rw [leafPoints_branch _ _ _ _ _
                (rederive_node_left false s s2 (putrt_isNode R s1 s _ hs))]
              exact (ih1 s hs).append_right (leafPoints s2)
          · cases hs : putrt R s2 (some p) with
            | none => simp [hs] at h
            | some s =>
              simp only [hs, Option.map_some', Option.some.injEq] at h
              subst h
              rw [leafPoints_branch _ _ _ _ _
                (rederive_node_left false s1 s (isNull_of_mbrOf s1 m1 hm1))]
              exact ((ih2 s hs).append_left (leafPoints s1)).trans
                List.perm_middle

theorem remrt_le_one (p : point) (t : rtree) (hw : walkable t = true)
    (hc : (leafPoints t).count p ≤ 1) :
    ∃ t2, remrt t (some p) = some t2 ∧ p ∉ leafPoints t2 ∧
      countrt t2 + (leafPoints t).count p = countrt t ∧ pfindrt t2 (some p) = none := by
  induction t with
  | null => simp [walkable] at hw
  | node pa mbr leaf s1 s2 ih1 ih2 =>
    cases hl : rederive leaf s1 s2 with
    | true =>
      rw [leafPoints_leaf _ _ _ _ _ hl] at hc
      obtain ⟨hnot, hlen⟩ := remrtLoop_le_one p pa hc
      refine ⟨_, remrt_leaf pa mbr leaf s1 s2 p hl, ?_, ?_, ?_⟩
      · rw [leafPoints_leaf _ _ _ _ _ (rederive_true_flag s1 s2)]; exact hnot
      · simp only [countrt]
        rw [leafPoints_leaf _ _ _ _ _ (rederive_true_flag s1 s2), leafPoints_leaf _ _ _ _ _ hl]
        exact hlen
      · have : ¬ ((remrtLoop p pa.length 0 pa).any (fun r => peq r p) = true) :=
          fun e => hnot ((any_peq_iff _ p).1 e)
        simp [pfindrt, this]
    | false =>
      obtain ⟨w1, w2⟩ := walkable_branch pa mbr leaf s1 s2 hw hl
      rw [leafPoints_branch _ _ _ _ _ hl, List.count_append] at hc
      obtain ⟨a, ha, na, ca, fa⟩ := ih1 w1 (by omega)
      obtain ⟨b, hb, nb, cb, fb⟩ := ih2 w2 (by omega)
      have hr : rederive false a b = false :=
        rederive_node_left false a b (remrt_isNode s1 a _ ha)
      refine ⟨node pa mbr false a b, ?_, ?_, ?_, ?_⟩
      · rw [remrt_branch pa mbr leaf s1 s2 p hl, ha, hb]; rfl
      · rw [leafPoints_branch _ _ _ _ _ hr]
        simp [na, nb]
      · simp only [countrt] at ca cb ⊢
        rw [leafPoints_branch _ _ _ _ _ hr, leafPoints_branch _ _ _ _ _ hl]
        simp only [List.length_append, List.count_append]
        omega
      · simp [pfindrt, fa, fb]

/-- C9. On every tree that `remrt` can walk and in which exactly one stored point equals
`p`, `remrt` returns, the total point count drops by exactly one, and `pfindrt` on the
resulting tree reports not-found for `p`. -/
theorem remrt_single_copy (t : rtree) (p : point) (hw : walkable t = true)
    (hc : (leafPoints t).count p = 1) :
    ∃ t2, remrt t (some p) = some t2 ∧ countrt t2 + 1 = countrt t ∧
      pfindrt t2 (some p) = none := by
  obtain ⟨t2, h2, _, c2, f2⟩ := remrt_le_one p t hw (by omega)
  exact ⟨t2, h2, by omega, f2⟩

/-- The scenario of C9: deleting (2,2,2) from the subdivided tree. -/
theorem remrt_single_copy_witness :
    walkable scenarioTree = true ∧ (leafPoints scenarioTree).count ⟨2, 2, 2⟩ = 1 ∧
    ∃ t2, remrt scenarioTree (some ⟨2, 2, 2⟩) = some t2 ∧ countrt t2 + 1 = countrt scenarioTree ∧
      pfindrt t2 (some ⟨2, 2, 2⟩) = none :=
  ⟨by decide, by decide, remrt_single_copy scenarioTree ⟨2, 2, 2⟩ (by decide) (by decide)⟩

/-- C3, as amended. On every tree that the operations can walk and none of whose leaves
holds a point equal to `p`, `putrt` followed by `remrt` of `p` both return and leave the
total point count equal to the count before the insertion. -/
theorem putrt_remrt_count (R : rectlib) (t : rtree) (p : point) (hw : walkable t = true)
    (hp : p ∉ leafPoints t) :
    ∃ t1 t2, putrt R t (some p) = some t1 ∧ remrt t1 (some p) = some t2 ∧
      countrt t2 = countrt t := by
  obtain ⟨t1, h1, w1⟩ := putrt_walkable R p t hw
  have hperm := putrt_leafPoints R p t t1 h1
  have hcnt : (leafPoints t1).count p = 1 := by
    rw [hperm.count_eq p, List.count_cons_self, List.count_eq_zero.2 hp]
  obtain ⟨t2, h2, _, c2, _⟩ := remrt_le_one p t1 w1 (by omega)
  refine ⟨t1, t2, h1, h2, ?_⟩
  have hlen := hperm.length_eq
  simp only [countrt, List.length_cons] at c2 hlen ⊢
  omega

/-- An instance of the amended C3: the point (5,5,5) and the subdivided tree. -/
theorem putrt_remrt_count_witness :
    walkable scenarioTree = true ∧ (⟨5, 5, 5⟩ : point) ∉ leafPoints scenarioTree ∧
    ∃ t1 t2, putrt boxlib scenarioTree (some ⟨5, 5, 5⟩) = some t1 ∧
      remrt t1 (some ⟨5, 5, 5⟩) = some t2 ∧ countrt t2 = countrt scenarioTree :=
  ⟨by decide, by decide, putrt_remrt_count boxlib scenarioTree ⟨5, 5, 5⟩ (by decide) (by decide)⟩


/-- C3 as stated fails: on a leaf that already holds (1,1,1) twice, inserting (1,1,1) and
then deleting it leaves one point where there were two. -/
theorem putrt_remrt_count_fails :
    wellFormed twoCopies = true ∧ countrt twoCopies = 2 ∧
    putrt boxlib twoCopies (some ⟨1, 1, 1⟩) =
      some (node [⟨1, 1, 1⟩, ⟨1, 1, 1⟩, ⟨1, 1, 1⟩] ⟨zeroPoint, zeroPoint⟩ true null null) ∧
    remrt (node [⟨1, 1, 1⟩, ⟨1, 1, 1⟩, ⟨1, 1, 1⟩] ⟨zeroPoint, zeroPoint⟩ true null null)
        (some ⟨1, 1, 1⟩) =
      some (node [⟨1, 1, 1⟩] ⟨zeroPoint, zeroPoint⟩ true null null) ∧
    countrt (node [⟨1, 1, 1⟩] ⟨zeroPoint, zeroPoint⟩ true null null) = 1 := by
  decide

theorem reinsert_leafPoints (R : rectlib) (qs : List point) (t t1 : rtree)
    (h : reinsert R t qs = some t1) : (leafPoints t1).Perm (qs ++ leafPoints t) := by
  induction qs generalizing t with
  | nil => simp only [reinsert, Option.some.injEq] at h; subst h; exact List.Perm.refl _
  | cons q qs ih =>
    simp only [reinsert] at h
    cases hq : putrt R t (some q) with
    | none => simp [hq] at h
    | some a =>
      simp only [hq] at h
      have h1 := ih a h
      have h2 := putrt_leafPoints R q t a hq
      exact (h1.trans (h2.append_left qs)).trans List.perm_middle

/-- While `subrt` reinserts, the node stays a branch: `putrt` keeps its container, its
rectangle and its clear flag, and both children stay nodes. -/
theorem putrt_keeps_branch (R : rectlib) (pa : parray) (mbr : rect) (s1 s2 t1 : rtree)
    (q : point) (n1 : s1.isNull = false) (n2 : s2.isNull = false)
    (h : putrt R (node pa mbr false s1 s2) (some q) = some t1) :
    ∃ a b, t1 = node pa mbr false a b ∧ a.isNull = false ∧ b.isNull = false := by
  have hl : rederive false s1 s2 = false := rederive_node_left false s1 s2 n1
  cases s1 with
  | null => cases n1
  | node pa1 m1 l1 a1 b1 =>
    cases s2 with
    | null => cases n2
    | node pa2 m2 l2 a2 b2 =>
      rw [putrt_branch R pa mbr m1 m2 false _ _ q hl rfl rfl] at h
      split at h
      · cases hs : putrt R (node pa1 m1 l1 a1 b1) (some q) with
        | none => simp [hs] at h
        | some s =>
          simp only [hs, Option.map_some', Option.some.injEq] at h
          exact ⟨s, _, h.symm, putrt_isNode R _ s _ hs, rfl⟩
      · cases hs : putrt R (node pa2 m2 l2 a2 b2) (some q) with
        | none => simp [hs] at h
        | some s =>
          simp only [hs, Option.map_some', Option.some.injEq] at h
          exact ⟨_, s, h.symm, rfl, putrt_isNode R _ s _ hs⟩

theorem reinsert_keeps_branch (R : rectlib) (qs : List point) (pa : parray) (mbr : rect)
    (s1 s2 t1 : rtree) (n1 : s1.isNull = false) (n2 : s2.isNull = false)
    (h : reinsert R (node pa mbr false s1 s2) qs = some t1) :
    ∃ a b, t1 = node pa mbr false a b ∧ a.isNull = false ∧ b.isNull = false := by
  induction qs generalizing s1 s2 with
  | nil =>
    simp only [reinsert, Option.some.injEq] at h
    exact ⟨s1, s2, h.symm, n1, n2⟩
  | cons q qs ih =>
    simp only [reinsert] at h
    cases hq : putrt R (node pa mbr false s1 s2) (some q) with
    | none => simp [hq] at h
    | some a =>
      simp only [hq] at h
      obtain ⟨c, d, e, nc, nd⟩ := putrt_keeps_branch R pa mbr s1 s2 a q n1 n2 hq
      subst e
      exact ih c d nc nd h

theorem freshChild_isNode (seed : Option point) : (freshChild seed).isNull = false := by
  cases seed <;> rfl

theorem leafPoints_freshChild (seed : Option point) : leafPoints (freshChild seed) = [] := by
  cases seed <;> rfl

theorem subrt_isNode (R : rectlib) (fuel : Nat) (t t1 : rtree) (b : Bool)
    (h : subrt R fuel t = .ok (t1, b)) : t1.isNull = false := by
  cases fuel with
  | zero => simp [subrt] at h
  | succ n =>
    cases t with
    | null => simp [subrt] at h
    | node pa mbr leaf s1 s2 =>
      unfold subrt at h
      split at h
      · split at h
        · cases h
        · split at h
          · split at h
            · cases h
            · cases h
            · split at h
              · cases h
              · split at h
                · cases h
                · cases h; rfl
          · cases h; rfl
      · split at h
        · cases h
        · split at h
          · cases h
          · cases h; rfl

/-- Whatever `subrt` returns holds the points it was given. -/
theorem subrt_leafPoints (R : rectlib) (fuel : Nat) (t t1 : rtree) (b : Bool)
    (h : subrt R fuel t = .ok (t1, b)) : (leafPoints t1).Perm (leafPoints t) := by
  induction fuel generalizing t t1 b with
  | zero => simp [subrt] at h
  | succ n ih =>
    cases t with
    | null => simp [subrt] at h
    | node pa mbr leaf s1 s2 =>
      unfold subrt at h
      split at h
      · rename_i hleaf
        subst hleaf
        split at h
        · cases h
        · rename_i sq max min hsd
          split at h
          · split at h
            · cases h
            · cases h
            · rename_i pa1 mbr1 leaf1 c1 c2 hre
              obtain ⟨a, b1, e, na, nb⟩ := reinsert_keeps_branch R pa pa mbr _ _ _
                (freshChild_isNode max) (freshChild_isNode min) hre
              cases e
              have hp := reinsert_leafPoints R pa _ _ hre
              rw [leafPoints_branch _ _ _ _ _ (rederive_node_left false _ _
                (freshChild_isNode max)), leafPoints_freshChild, leafPoints_freshChild,
                leafPoints_branch _ _ _ _ _ (rederive_node_left false _ _ na)] at hp
              simp only [List.append_nil] at hp
              split at h
              · cases h
              · rename_i s1a f1 hs1
                split at h
                · cases h
                · rename_i s2a f2 hs2
                  cases h
                  rw [leafPoints_branch _ _ _ _ _ (rederive_node_left false _ _
                    (subrt_isNode R n _ _ _ hs1)), leafPoints_leaf _ _ _ _ _
                    (rederive_true_flag s1 s2)]
                  exact ((ih _ _ _ hs1).append (ih _ _ _ hs2)).trans hp
          · cases h; exact List.Perm.refl _
      · rename_i hleaf
        have hleaf : leaf = false := by simpa using hleaf
        subst hleaf
        split at h
        · cases h
        · rename_i s1a f1 hs1
          split at h
          · cases h
          · rename_i s2a f2 hs2
            cases h
            have n1 : s1.isNull = false := by
              cases s1 with
              | null => cases n <;> simp [subrt] at hs1
              | node _ _ _ _ _ => rfl
            rw [leafPoints_branch _ _ _ _ _ (rederive_node_left false _ _
                (subrt_isNode R n _ _ _ hs1)),
              leafPoints_branch _ _ _ _ _ (rederive_node_left false _ _ n1)]
            exact (ih _ _ _ hs1).append (ih _ _ _ hs2)

theorem setxyz_eta (m : point) : setxyz m.x m.y m.z = m := rfl

/-- The reinsertion loop of `subrt`, in closed form: the points for which `sub1`
costs at least as much go to `sub1`, the others to `sub2`; a child that got a point
has its flag set; the rectangles are untouched. -/
theorem reinsert_childless (R : rectlib) (qs : List point) (pa l1 l2 : parray)
    (mbr m1 m2 : rect) (f1 f2 : Bool) :
    reinsert R (node pa mbr false (node l1 m1 f1 null null) (node l2 m2 f2 null null)) qs =
      some (node pa mbr false
        (node (l1 ++ qs.filter (toSub1 R m1 m2)) m1
          (f1 || (qs.filter (toSub1 R m1 m2)).length != 0) null null)
        (node (l2 ++ qs.filter (fun q => !toSub1 R m1 m2 q)) m2
          (f2 || (qs.filter (fun q => !toSub1 R m1 m2 q)).length != 0) null null)) := by
  induction qs generalizing l1 l2 f1 f2 with
  | nil => simp [reinsert]
  | cons q qs ih =>
    have hl : rederive false (node l1 m1 f1 null null) (node l2 m2 f2 null null) = false := rfl
    have hc1 : putrt R (node l1 m1 f1 null null) (some q) =
        some (node (l1 ++ [q]) m1 true null null) := putrt_leaf R _ _ _ _ _ q rfl
    have hc2 : putrt R (node l2 m2 f2 null null) (some q) =
        some (node (l2 ++ [q]) m2 true null null) := putrt_leaf R _ _ _ _ _ q rfl
    simp only [reinsert]
    rw [putrt_branch R pa mbr m1 m2 false _ _ q hl rfl rfl]
    by_cases hg : R.rszsum m1 q ≥ R.rszsum m2 q
    · have hg' : toSub1 R m1 m2 q = true := by simp [toSub1, hg]
      simp only [hg, if_true, hc1, Option.map_some', ih, hg', List.filter_cons_of_pos,
        Bool.not_true, Bool.false_eq_true, not_false_eq_true, List.filter_cons_of_neg]
      simp
    · have hg' : toSub1 R m1 m2 q = false := by simp [toSub1, hg]
      simp only [hg, if_false, hc2, Option.map_some', ih, hg', Bool.false_eq_true,
        not_false_eq_true, List.filter_cons_of_neg, Bool.not_false, List.filter_cons_of_pos]
      simp

theorem sqrt_gt_maxsdev_iff (q : ℚ) :
    Real.sqrt (q : ℝ) > (maxsdev : ℝ) ↔ q > maxsdev ^ 2 := by
  have h30 : ((maxsdev : ℚ) : ℝ) = 30 := by simp [maxsdev]
  rw [h30, gt_iff_lt, Real.lt_sqrt (by norm_num)]
  have : (maxsdev : ℚ) ^ 2 = 900 := by norm_num [maxsdev]
  rw [this]
  constructor
  · intro h
    have : ((900 : ℚ) : ℝ) < (q : ℝ) := by push_cast; linarith
    exact_mod_cast this
  · intro h
    have : ((900 : ℚ) : ℝ) < (q : ℝ) := by exact_mod_cast h
    push_cast at this; linarith

theorem psinrrt_branch_none (R : rectlib) (pa : parray) (mbr : rect) (leaf : Bool)
    (s1 s2 t1 : rtree) (q : rect) (buf : Option (List point))
    (hl : rederive leaf s1 s2 = false)
    (h : psinrrt R (node pa mbr leaf s1 s2) (some q) = some (t1, buf)) : buf = none := by
  unfold psinrrt at h
  simp only [hl, Bool.false_eq_true, if_false] at h
  split at h
  · split at h
    · cases h
    · split at h
      · cases h
      · cases h; rfl
  · cases h

theorem putrt_branch_gt (R : rectlib) (pa : parray) (mbr m1 m2 : rect) (leaf : Bool)
    (s1 s2 : rtree) (q : point) (h : rederive leaf s1 s2 = false)
    (h1 : s1.mbrOf = some m1) (h2 : s2.mbrOf = some m2)
    (hc : R.rszsum m1 q > R.rszsum m2 q) :
    putrt R (node pa mbr leaf s1 s2) (some q) =
      (putrt R s1 (some q)).map (fun s => node pa mbr false s s2) := by
  rw [putrt_branch R pa mbr m1 m2 leaf s1 s2 q h h1 h2, if_pos (le_of_lt hc)]

/-- C1, at the scenario of the claim. The tree built from the four points and subdivided is
a branch; queried with the box (0,0,0)-(1,1,1), `psinrrt` returns `NULL` and no points,
although the leaves hold (0,0,0) and (1,1,1), which the point-in-rectangle test accepts. -/
theorem psinrrt_scenario_null :
    ((((some emptyRoot).bind (fun t => putrt boxlib t (some ⟨0, 0, 0⟩))).bind
        (fun t => putrt boxlib t (some ⟨1, 1, 1⟩))).bind
        (fun t => putrt boxlib t (some ⟨2, 2, 2⟩))).bind
        (fun t => putrt boxlib t (some ⟨100, 100, 100⟩)) = some scenarioLeaf ∧
    subrt boxlib 2 scenarioLeaf = .ok (scenarioTree, true) ∧
    psinrrt boxlib scenarioTree (some scenarioBox) = some (scenarioTree, none) ∧
    (leafPoints scenarioTree).filter (boxlib.pinr scenarioBox) = [⟨0, 0, 0⟩, ⟨1, 1, 1⟩] := by
  refine ⟨by decide, by decide!, by decide!, by decide!⟩

/-- C2, at the container `[p, p]`. After `rempa` one copy of `p` is still stored: the copy
that was moved from the end into slot 0 is never examined. -/
theorem rempa_leaves_copy (p : point) : rempa [p, p] p = [p] ∧ p ∈ rempa [p, p] p := by
  have h : rempa [p, p] p = [p] := by
    simp [rempa, rempaLoop, peq_self, swapout]
  rw [h]
  exact ⟨rfl, List.mem_singleton.2 rfl⟩

/-- C6, at the tree of the scenario and the point (1,1,1). The cost of `sub1` is 297 and
the cost of `sub2` is 3, and `putrt` appends the point to `sub1`, the child of higher
cost. -/
theorem putrt_picks_costlier :
    boxlib.rszsum ⟨⟨100, 100, 100⟩, ⟨100, 100, 100⟩⟩ ⟨1, 1, 1⟩ = 297 ∧
    boxlib.rszsum ⟨⟨0, 0, 0⟩, ⟨0, 0, 0⟩⟩ ⟨1, 1, 1⟩ = 3 ∧
    putrt boxlib scenarioTree (some ⟨1, 1, 1⟩) =
      some (node [] ⟨zeroPoint, zeroPoint⟩ false
        (node [⟨0, 0, 0⟩, ⟨1, 1, 1⟩, ⟨2, 2, 2⟩, ⟨1, 1, 1⟩]
          ⟨⟨100, 100, 100⟩, ⟨100, 100, 100⟩⟩ true null null)
        (node [⟨100, 100, 100⟩] ⟨⟨0, 0, 0⟩, ⟨0, 0, 0⟩⟩ true null null)) := by
  refine ⟨by decide!, by decide!, by decide!⟩

/-- C7, at the heights 0, 1, 2, 100. `sdevrt` uses the integer mean 25, so the square of
its result is 7355/3, while the sample variance about the exact mean 103/4 is 29411/12. -/
theorem sdevrt_scenario :
    sdevrt scenarioLeaf (some zeroPoint) (some zeroPoint) =
      some (7355 / 3, some ⟨100, 100, 100⟩, some ⟨0, 0, 0⟩) ∧
    sdevMean scenarioPoints ⟨0, 0, 0⟩ = 25 ∧
    besselVar (scenarioPoints.map point.z) = 29411 / 12 ∧
    (7355 / 3 : ℚ) ≠ 29411 / 12 := by
  refine ⟨by decide!, by decide!, by decide!, by decide!⟩

/-- C8, at the tree of the scenario. `resizert` returns 0 and leaves the tree as it was:
the first leaf still has the seed box at (100,100,100) as its rectangle, while the tight
bounding box of its three points is (0,0,0)-(2,2,2). -/
theorem resizert_scenario :
    resizert scenarioTree = (scenarioTree, 0) ∧
    subtreeAt (resizert scenarioTree).1 [false] =
      node [⟨0, 0, 0⟩, ⟨1, 1, 1⟩, ⟨2, 2, 2⟩] ⟨⟨100, 100, 100⟩, ⟨100, 100, 100⟩⟩ true null null ∧
    bbox [⟨0, 0, 0⟩, ⟨1, 1, 1⟩, ⟨2, 2, 2⟩] = some ⟨⟨0, 0, 0⟩, ⟨2, 2, 2⟩⟩ := by
  refine ⟨rfl, by decide, by decide!⟩

theorem ediv_bound (b n : ℤ) (hn : 0 < n) :
    (((b / n : ℤ)) : ℚ) ≤ (b : ℚ) / n ∧ (b : ℚ) / n < ((b / n : ℤ) : ℚ) + 1 := by
  have h := Int.emod_add_ediv b n
  have h0 := Int.emod_nonneg b (ne_of_gt hn)
  have h1 := Int.emod_lt_of_pos b hn
  have hq : (b : ℚ) = ((b % n : ℤ) : ℚ) + (n : ℚ) * ((b / n : ℤ) : ℚ) := by
    exact_mod_cast h.symm
  have hn' : (0 : ℚ) < n := by exact_mod_cast hn
  have h0' : (0 : ℚ) ≤ ((b % n : ℤ) : ℚ) := by exact_mod_cast h0
  have h1' : ((b % n : ℤ) : ℚ) < n := by exact_mod_cast h1
  constructor
  · rw [le_div_iff₀ hn']; nlinarith
  · rw [div_lt_iff₀ hn']; nlinarith

/-- Rounding a quotient toward zero moves it by less than one. -/
theorem tdiv_bound (a n : ℤ) (hn : 0 < n) :
    |((Int.tdiv a n : ℤ) : ℚ) - (a : ℚ) / n| < 1 := by
  rcases le_or_lt 0 a with ha | ha
  · rw [Int.tdiv_eq_ediv ha (le_of_lt hn)]
    obtain ⟨h1, h2⟩ := ediv_bound a n hn
    rw [abs_lt]; constructor <;> linarith
  · have e : Int.tdiv a n = -((-a) / n) := by
      have : a = -(-a) := by omega
      conv_lhs => rw [this, Int.neg_tdiv]
      rw [Int.tdiv_eq_ediv (by omega) (le_of_lt hn)]
    rw [e]
    obtain ⟨h1, h2⟩ := ediv_bound (-a) n hn
    push_cast at h1 h2 ⊢
    rw [neg_div] at h1 h2
    rw [abs_lt]; constructor <;> linarith

theorem dtrunc_bound (q : ℚ) : |((dtrunc q : ℤ) : ℚ) - q| < 1 := by
  have h := tdiv_bound q.num q.den (by exact_mod_cast q.den_pos)
  have e : (q.num : ℚ) / ((q.den : ℤ) : ℚ) = q := by
    simpa using Rat.num_div_den q
  rw [e] at h
  exact h

/-- Rounding toward zero does not increase the absolute value. -/
theorem tdiv_abs_le (a n : ℤ) (hn : 0 < n) :
    |((Int.tdiv a n : ℤ) : ℚ)| ≤ |(a : ℚ) / n| := by
  have hn' : (0 : ℚ) < n := by exact_mod_cast hn
  rcases le_or_lt 0 a with ha | ha
  · rw [Int.tdiv_eq_ediv ha (le_of_lt hn)]
    obtain ⟨h1, _⟩ := ediv_bound a n hn
    have h0 : (0 : ℚ) ≤ ((a / n : ℤ) : ℚ) := by
      exact_mod_cast Int.ediv_nonneg ha (le_of_lt hn)
    have ha' : (0 : ℚ) ≤ (a : ℚ) / n := div_nonneg (by exact_mod_cast ha) (le_of_lt hn')
    rw [abs_of_nonneg h0, abs_of_nonneg ha']
    exact h1
  · have e : Int.tdiv a n = -((-a) / n) := by
      have : a = -(-a) := by omega
      conv_lhs => rw [this, Int.neg_tdiv]
      rw [Int.tdiv_eq_ediv (by omega) (le_of_lt hn)]
    rw [e]
    obtain ⟨h1, _⟩ := ediv_bound (-a) n hn
    have h0 : (0 : ℚ) ≤ (((-a) / n : ℤ) : ℚ) := by
      exact_mod_cast Int.ediv_nonneg (by omega) (le_of_lt hn)
    have ha' : (a : ℚ) / n ≤ 0 :=
      div_nonpos_of_nonpos_of_nonneg (by exact_mod_cast le_of_lt ha) (le_of_lt hn')
    push_cast at h1 h0 ⊢
    rw [abs_neg, abs_of_nonneg h0, abs_of_nonpos ha']
    rw [neg_div] at h1
    exact h1

theorem dtrunc_abs_le (q : ℚ) : |((dtrunc q : ℤ) : ℚ)| ≤ |q| := by
  have h := tdiv_abs_le q.num q.den (by exact_mod_cast q.den_pos)
  have e : (q.num : ℚ) / ((q.den : ℤ) : ℚ) = q := by
    simpa using Rat.num_div_den q
  rw [e] at h
  exact h

theorem intFits_of_abs_lt (k : ℤ) (h : |(k : ℚ)| < 2147483648) : intFits k = true := by
  rw [abs_lt] at h
  have h1 : (-2147483648 : ℤ) < k := by exact_mod_cast h.1
  have h2 : k < (2147483648 : ℤ) := by exact_mod_cast h.2
  simp only [intFits, Bool.and_eq_true, decide_eq_true_eq]
  omega

/-- Inside the range of `int` the conversion is the truncation. -/
theorem dtoi_of_abs_lt (q : ℚ) (h : |q| < 2147483648) : dtoi q = dtrunc q := by
  have hf := intFits_of_abs_lt (dtrunc q) (lt_of_le_of_lt (dtrunc_abs_le q) h)
  simp [dtoi, hf]

theorem zMass_nonneg (pa : parray) : 0 ≤ zMass pa := by
  induction pa with
  | nil => simp [zMass]
  | cons q qs ih =>
    simp only [zMass, List.map_cons, List.sum_cons] at ih ⊢
    exact add_nonneg (abs_nonneg _) ih

theorem zMass_cons (q : point) (qs : parray) : zMass (q :: qs) = |q.z| + zMass qs := by
  simp [zMass]

theorem zMass_filter_le (pa : parray) (g : point → Bool) : zMass (pa.filter g) ≤ zMass pa := by
  induction pa with
  | nil => simp [zMass]
  | cons q qs ih =>
    cases hg : g q
    · rw [List.filter_cons_of_neg (by simp [hg]), zMass_cons]
      linarith [abs_nonneg q.z]
    · rw [List.filter_cons_of_pos hg, zMass_cons, zMass_cons]
      linarith

/-- While the absolute heights add up to less than 2^31, the `int` total of `sdevrt` stays
within one per point of the exact sum. -/
theorem foldl_total_bound (pa : parray) (s : Int × point × point)
    (hm : |(s.1 : ℚ)| + zMass pa < 2147483648) :
    |(((pa.foldl sdevStep s).1 : ℤ) : ℚ) - ((s.1 : ℚ) + (pa.map point.z).sum)| ≤ pa.length := by
  induction pa generalizing s with
  | nil => simp
  | cons q qs ih =>
    rw [zMass_cons] at hm
    have hz := zMass_nonneg qs
    have hx : |(s.1 : ℚ) + q.z| < 2147483648 :=
      lt_of_le_of_lt (abs_add _ _) (by linarith)
    have e : (sdevStep s q).1 = dtrunc ((s.1 : ℚ) + q.z) := by
      show dtoi ((s.1 : ℚ) + q.z) = _
      exact dtoi_of_abs_lt _ hx
    have hle := dtrunc_abs_le ((s.1 : ℚ) + q.z)
    have h1 := ih (sdevStep s q) (by
      rw [e]
      have := abs_add (s.1 : ℚ) q.z
      linarith)
    have h2 := dtrunc_bound ((s.1 : ℚ) + q.z)
    rw [e] at h1
    simp only [List.foldl_cons, List.map_cons, List.sum_cons, List.length_cons]
    rw [abs_le] at h1 ⊢
    rw [abs_lt] at h2
    push_cast
    constructor <;> linarith [h1.1, h1.2, h2.1, h2.2]

theorem foldl_max (pa : parray) (s : Int × point × point) :
    ((pa.foldl sdevStep s).2.1 = s.2.1 ∨ (pa.foldl sdevStep s).2.1 ∈ pa) ∧
      s.2.1.z ≤ (pa.foldl sdevStep s).2.1.z ∧
      ∀ q ∈ pa, q.z ≤ (pa.foldl sdevStep s).2.1.z := by
  induction pa generalizing s with
  | nil => simp
  | cons q qs ih =>
    obtain ⟨h1, h2, h3⟩ := ih (sdevStep s q)
    simp only [List.foldl_cons, List.mem_cons]
    have e : (sdevStep s q).2.1 = if q.z > s.2.1.z then q else s.2.1 := rfl
    rw [e] at h1 h2
    by_cases hc : q.z > s.2.1.z
    · simp only [hc, if_true] at h1 h2
      refine ⟨?_, ?_, ?_⟩
      · rcases h1 with h | h
        · right; left; exact h
        · right; right; exact h
      · linarith
      · rintro a (rfl | ha)
        · exact h2
        · exact h3 a ha
    · simp only [hc, if_false] at h1 h2
      refine ⟨?_, h2, ?_⟩
      · rcases h1 with h | h
        · left; exact h
        · right; right; exact h
      · rintro a (rfl | ha)
        · linarith
        · exact h3 a ha

theorem foldl_min (pa : parray) (s : Int × point × point) :
    ((pa.foldl sdevStep s).2.2 = s.2.2 ∨ (pa.foldl sdevStep s).2.2 ∈ pa) ∧
      (pa.foldl sdevStep s).2.2.z ≤ s.2.2.z ∧
      ∀ q ∈ pa, (pa.foldl sdevStep s).2.2.z ≤ q.z := by
  induction pa generalizing s with
  | nil => simp
  | cons q qs ih =>
    obtain ⟨h1, h2, h3⟩ := ih (sdevStep s q)
    simp only [List.foldl_cons, List.mem_cons]
    have e : (sdevStep s q).2.2 = if q.z < s.2.2.z then q else s.2.2 := rfl
    rw [e] at h1 h2
    by_cases hc : q.z < s.2.2.z
    · simp only [hc, if_true] at h1 h2
      refine ⟨?_, ?_, ?_⟩
      · rcases h1 with h | h
        · right; left; exact h
        · right; right; exact h
      · linarith
      · rintro a (rfl | ha)
        · exact h2
        · exact h3 a ha
    · simp only [hc, if_false] at h1 h2
      refine ⟨?_, h2, ?_⟩
      · rcases h1 with h | h
        · left; exact h
        · right; right; exact h
      · rintro a (rfl | ha)
        · linarith
        · exact h3 a ha

/-- The highest point found by `sdevrt` on a non-empty container is stored in it and no
stored point is higher. -/
theorem sdev_max_spec (first : point) (rest : List point) :
    ((first :: rest).foldl sdevStep (0, first, first)).2.1 ∈ first :: rest ∧
      ∀ q ∈ first :: rest, q.z ≤ ((first :: rest).foldl sdevStep (0, first, first)).2.1.z := by
  obtain ⟨h1, _, h3⟩ := foldl_max (first :: rest) (0, first, first)
  refine ⟨?_, h3⟩
  rcases h1 with h | h
  · rw [h]; exact List.mem_cons_self _ _
  · exact h

/-- The lowest point found by `sdevrt` on a non-empty container is stored in it and no
stored point is lower. -/
theorem sdev_min_spec (first : point) (rest : List point) :
    ((first :: rest).foldl sdevStep (0, first, first)).2.2 ∈ first :: rest ∧
      ∀ q ∈ first :: rest, ((first :: rest).foldl sdevStep (0, first, first)).2.2.z ≤ q.z := by
  obtain ⟨h1, _, h3⟩ := foldl_min (first :: rest) (0, first, first)
  refine ⟨?_, h3⟩
  rcases h1 with h | h
  · rw [h]; exact List.mem_cons_self _ _
  · exact h

theorem sum_const_z (pa : parray) (c : ℚ) (h : ∀ q ∈ pa, q.z = c) :
    (pa.map point.z).sum = pa.length * c := by
  induction pa with
  | nil => simp
  | cons q qs ih =>
    have hq := h q (List.mem_cons_self _ _)
    have := ih (fun a ha => h a (List.mem_cons_of_mem _ ha))
    simp only [List.map_cons, List.sum_cons, List.length_cons, this, hq]
    push_cast; ring

theorem sdevMean_const (pa : parray) (first : point) (c : ℚ) (hlen : 0 < pa.length)
    (h : ∀ q ∈ pa, q.z = c) (hm : zMass pa < 2147483648) :
    |sdevMean pa first - c| < 2 := by
  have hT := foldl_total_bound pa (0, first, first) (by simpa using hm)
  rw [sum_const_z pa c h] at hT
  have hn : (0 : ℤ) < (pa.length : ℤ) := by exact_mod_cast hlen
  have hM := tdiv_bound (pa.foldl sdevStep (0, first, first)).1 (pa.length : ℤ) hn
  have hn' : (0 : ℚ) < (pa.length : ℚ) := by exact_mod_cast hlen
  unfold sdevMean
  set T : ℚ := (((pa.foldl sdevStep (0, first, first)).1 : ℤ) : ℚ) with hTdef
  set m : ℚ := ((Int.tdiv (pa.foldl sdevStep (0, first, first)).1 (pa.length : ℤ) : ℤ) : ℚ)
  have hcast : (((pa.length : ℤ)) : ℚ) = (pa.length : ℚ) := by push_cast; rfl
  rw [hcast] at hM
  simp only [Int.cast_zero, zero_add] at hT
  have hdiv : |T / (pa.length : ℚ) - c| ≤ 1 := by
    have e : T / (pa.length : ℚ) - c = (T - pa.length * c) / pa.length := by
      field_simp
    rw [e, abs_div, abs_of_pos hn', div_le_one hn']
    exact hT
  rw [abs_lt] at hM ⊢
  rw [abs_le] at hdiv
  constructor <;> linarith [hM.1, hM.2, hdiv.1, hdiv.2]

theorem sdevSumsqr_bound (pa : parray) (m B : ℚ) (h : ∀ q ∈ pa, (q.z - m) ^ 2 ≤ B) :
    ∀ acc : ℚ, pa.foldl (fun acc q => acc + (q.z - m) ^ 2) acc ≤ acc + pa.length * B := by
  induction pa with
  | nil => intro acc; simp
  | cons q qs ih =>
    intro acc
    have hq := h q (List.mem_cons_self _ _)
    have := ih (fun a ha => h a (List.mem_cons_of_mem _ ha)) (acc + (q.z - m) ^ 2)
    simp only [List.foldl_cons, List.length_cons]
    push_cast
    linarith

theorem sdevrt_small (pa : parray) (mbr : rect) (leaf : Bool) (s1 s2 : rtree)
    (max min : Option point) (h : pa.length ≤ 1) :
    sdevrt (node pa mbr leaf s1 s2) max min = some (0, max, min) := by
  simp [sdevrt, h]

theorem sdevrt_large (first : point) (rest : List point) (mbr : rect) (s1 s2 : rtree)
    (a b : point) (h : 2 ≤ (first :: rest).length) :
    sdevrt (node (first :: rest) mbr true s1 s2) (some a) (some b) =
      some (sdevSumsqr (first :: rest) (sdevMean (first :: rest) first) /
          (((first :: rest).length : ℚ) - 1),
        some ((first :: rest).foldl sdevStep (0, first, first)).2.1,
        some ((first :: rest).foldl sdevStep (0, first, first)).2.2) := by
  have h' : ¬ ((first :: rest).length ≤ 1) := by omega
  simp only [sdevrt, h', decide_False, Bool.not_true, Bool.or_self, Bool.false_eq_true,
    if_false, setxyz_eta]

/-- A container whose points all have the same height, and whose absolute heights add up
to less than 2^31, is never split: its dispersion, as `sdevrt` computes it, stays below the
threshold. -/
theorem sdev_const_small (pa : parray) (first : point) (c : ℚ) (hlen : 2 ≤ pa.length)
    (h : ∀ q ∈ pa, q.z = c) (hmass : zMass pa < 2147483648) :
    ¬ (sdevSumsqr pa (sdevMean pa first) / ((pa.length : ℚ) - 1) > maxsdev ^ 2) := by
  have hm := sdevMean_const pa first c (by omega) h hmass
  have hb : ∀ q ∈ pa, (q.z - sdevMean pa first) ^ 2 ≤ 4 := by
    intro q hq
    rw [h q hq]
    rw [abs_lt] at hm
    nlinarith [hm.1, hm.2]
  have hs := sdevSumsqr_bound pa (sdevMean pa first) 4 hb 0
  have hn : (2 : ℚ) ≤ (pa.length : ℚ) := by exact_mod_cast hlen
  have hpos : (0 : ℚ) < (pa.length : ℚ) - 1 := by linarith
  have e : sdevSumsqr pa (sdevMean pa first) =
      pa.foldl (fun acc q => acc + (q.z - sdevMean pa first) ^ 2) 0 := rfl
  rw [not_lt, div_le_iff₀ hpos, e]
  have : (maxsdev : ℚ) ^ 2 = 900 := by norm_num [maxsdev]
  rw [this]
  linarith

/-- When `sdevrt` reports a dispersion above the threshold, and the absolute heights add up
to less than 2^31, the highest and the lowest point it found differ in height. -/
theorem sdev_seeds_differ (first : point) (rest : List point)
    (hlen : 2 ≤ (first :: rest).length) (hmass : zMass (first :: rest) < 2147483648)
    (hex : sdevSumsqr (first :: rest) (sdevMean (first :: rest) first) /
        (((first :: rest).length : ℚ) - 1) > maxsdev ^ 2) :
    ((first :: rest).foldl sdevStep (0, first, first)).2.1.z ≠
      ((first :: rest).foldl sdevStep (0, first, first)).2.2.z := by
  intro heq
  obtain ⟨_, hmax⟩ := sdev_max_spec first rest
  obtain ⟨_, hmin⟩ := sdev_min_spec first rest
  refine sdev_const_small (first :: rest) first
    ((first :: rest).foldl sdevStep (0, first, first)).2.1.z hlen ?_ hmass hex
  intro q hq
  have h1 := hmax q hq
  have h2 := hmin q hq
  rw [← heq] at h2
  exact le_antisymm h1 h2

theorem sdevrt_node_ne_none (pa : parray) (mbr : rect) (leaf : Bool) (s1 s2 : rtree)
    (max min : Option point) : sdevrt (node pa mbr leaf s1 s2) max min ≠ none := by
  simp only [sdevrt]
  split
  · simp
  · cases pa <;> simp

theorem subrt_keep (R : rectlib) (fuel : Nat) (pa : parray) (mbr : rect) (s1 s2 : rtree)
    (h : exceeds (node pa mbr true s1 s2) = false) :
    subrt R (fuel + 1) (node pa mbr true s1 s2) = .ok (node pa mbr true s1 s2, false) := by
  unfold exceeds at h
  unfold subrt
  simp only [if_true]
  split
  · rename_i hs; exact absurd hs (sdevrt_node_ne_none pa mbr true s1 s2 _ _)
  · rename_i sq max min hs
    rw [hs] at h
    simp only [decide_eq_false_iff_not] at h
    simp only [h, if_false]

/-- One splitting step of `subrt`, with the reinsertion loop in closed form. -/
theorem subrt_split (R : rectlib) (fuel : Nat) (pa : parray) (mbr : rect) (s1 s2 : rtree)
    (sq : ℚ) (M N : point)
    (hs : sdevrt (node pa mbr true s1 s2) (some zeroPoint) (some zeroPoint) =
      some (sq, some M, some N))
    (hex : sq > maxsdev ^ 2) :
    subrt R (fuel + 1) (node pa mbr true s1 s2) =
      match subrt R fuel (node (pa.filter (toSub1 R ⟨M, M⟩ ⟨N, N⟩)) ⟨M, M⟩
          ((pa.filter (toSub1 R ⟨M, M⟩ ⟨N, N⟩)).length != 0) null null) with
      | .error e => .error e
      | .ok (a, _) =>
        match subrt R fuel (node (pa.filter (fun q => !toSub1 R ⟨M, M⟩ ⟨N, N⟩ q)) ⟨N, N⟩
            ((pa.filter (fun q => !toSub1 R ⟨M, M⟩ ⟨N, N⟩ q)).length != 0) null null) with
        | .error e => .error e
        | .ok (b, _) => .ok (node [] mbr false a b, true) := by
  conv_lhs => unfold subrt
  simp only [if_true, hs, hex, freshChild, setxyz_eta, reinsert_childless, List.nil_append,
    Bool.false_or]

theorem filter_length_add (pa : parray) (g : point → Bool) :
    (pa.filter g).length + (pa.filter (fun q => !g q)).length = pa.length := by
  induction pa with
  | nil => rfl
  | cons q qs ih =>
    cases hg : g q <;> simp [List.filter_cons, hg] <;> omega

/-- With a cost function that tells the seeds apart, `subrt` (zero-filled blocks) returns on
every leaf whose absolute heights add up to less than 2^31, within a recursion depth of one
more than the number of points. -/
theorem subrt_total (R : rectlib) (hsep : separates R) (n : Nat) :
    ∀ (pa : parray) (mbr : rect) (s1 s2 : rtree), pa.length ≤ n →
      zMass pa < 2147483648 →
      ∃ t1 b, subrt R (n + 1) (node pa mbr true s1 s2) = .ok (t1, b) := by
  induction n with
  | zero =>
    intro pa mbr s1 s2 hlen _
    refine ⟨_, _, subrt_keep R 0 pa mbr s1 s2 ?_⟩
    simp [exceeds, sdevrt_small pa mbr true s1 s2 _ _ (by omega), maxsdev]
  | succ k ih =>
    intro pa mbr s1 s2 hlen hmass
    cases hex : exceeds (node pa mbr true s1 s2) with
    | false => exact ⟨_, _, subrt_keep R (k + 1) pa mbr s1 s2 hex⟩
    | true =>
      have h2 : 2 ≤ pa.length := by
        by_contra hc
        simp [exceeds, sdevrt_small pa mbr true s1 s2 _ _ (by omega : pa.length ≤ 1),
          maxsdev] at hex
        norm_num at hex
      cases pa with
      | nil => simp at h2
      | cons first rest =>
        have hs := sdevrt_large first rest mbr s1 s2 zeroPoint zeroPoint h2
        simp only [exceeds, hs, decide_eq_true_eq] at hex
        have hne := sdev_seeds_differ first rest h2 hmass hex
        obtain ⟨hMmem, _⟩ := sdev_max_spec first rest
        obtain ⟨hNmem, _⟩ := sdev_min_spec first rest
        rw [subrt_split R (k + 1) _ mbr s1 s2 _ _ _ hs hex]
        set M := ((first :: rest).foldl sdevStep (0, first, first)).2.1
        set N := ((first :: rest).foldl sdevStep (0, first, first)).2.2
        have gM : toSub1 R ⟨M, M⟩ ⟨N, N⟩ M = false := by
          simp only [toSub1, decide_eq_false_iff_not, ge_iff_le, not_le]
          exact hsep M N hne
        have gN : toSub1 R ⟨M, M⟩ ⟨N, N⟩ N = true := by
          simp only [toSub1, decide_eq_true_eq, ge_iff_le]
          exact le_of_lt (hsep N M (Ne.symm hne))
        have m1 : N ∈ (first :: rest).filter (toSub1 R ⟨M, M⟩ ⟨N, N⟩) :=
          List.mem_filter.2 ⟨hNmem, gN⟩
        have m2 : M ∈ (first :: rest).filter (fun q => !toSub1 R ⟨M, M⟩ ⟨N, N⟩ q) :=
          List.mem_filter.2 ⟨hMmem, by simp [gM]⟩
        have p1 := List.length_pos_of_mem m1
        have p2 := List.length_pos_of_mem m2
        have hsum := filter_length_add (first :: rest) (toSub1 R ⟨M, M⟩ ⟨N, N⟩)
        have f1 : (((first :: rest).filter (toSub1 R ⟨M, M⟩ ⟨N, N⟩)).length != 0) = true := by
          simp only [bne_iff_ne, ne_eq]; omega
        have f2 : (((first :: rest).filter
            (fun q => !toSub1 R ⟨M, M⟩ ⟨N, N⟩ q)).length != 0) = true := by
          simp only [bne_iff_ne, ne_eq]; omega
        rw [f1, f2]
        obtain ⟨a, fa, ha⟩ := ih ((first :: rest).filter (toSub1 R ⟨M, M⟩ ⟨N, N⟩)) ⟨M, M⟩
          null null (by omega) (lt_of_le_of_lt (zMass_filter_le _ _) hmass)
        obtain ⟨b, fb, hb⟩ := ih ((first :: rest).filter
          (fun q => !toSub1 R ⟨M, M⟩ ⟨N, N⟩ q)) ⟨N, N⟩ null null (by omega)
          (lt_of_le_of_lt (zMass_filter_le _ _) hmass)
        rw [ha, hb]
        exact ⟨_, _, rfl⟩

theorem exceeds_large (pa : parray) (mbr : rect) (s1 s2 : rtree)
    (hex : exceeds (node pa mbr true s1 s2) = true) :
    ∃ sq M N, sdevrt (node pa mbr true s1 s2) (some zeroPoint) (some zeroPoint) =
      some (sq, some M, some N) ∧ sq > maxsdev ^ 2 := by
  have h2 : 2 ≤ pa.length := by
    by_contra hc
    simp [exceeds, sdevrt_small pa mbr true s1 s2 _ _ (by omega : pa.length ≤ 1),
      maxsdev] at hex
    norm_num at hex
  cases pa with
  | nil => simp at h2
  | cons first rest =>
    have hs := sdevrt_large first rest mbr s1 s2 zeroPoint zeroPoint h2
    simp only [exceeds, hs, decide_eq_true_eq] at hex
    exact ⟨_, _, _, hs, hex⟩

theorem subrt_split_flag (R : rectlib) (fuel : Nat) (pa : parray) (mbr : rect)
    (s1 s2 t1 : rtree) (b : Bool) (hex : exceeds (node pa mbr true s1 s2) = true)
    (h : subrt R fuel (node pa mbr true s1 s2) = .ok (t1, b)) : b = true := by
  cases fuel with
  | zero => simp [subrt] at h
  | succ n =>
    obtain ⟨sq, M, N, hs, hgt⟩ := exceeds_large pa mbr s1 s2 hex
    rw [subrt_split R n pa mbr s1 s2 sq M N hs hgt] at h
    split at h
    · cases h
    · split at h
      · cases h
      · cases h; rfl

theorem boxlib_separates : separates boxlib := by
  intro a b hne
  have h0 : boxlib.rszsum ⟨a, a⟩ a = 0 := by
    simp [boxlib]
  have hx : (0 : ℚ) ≤ max 0 (min b.x b.x - a.x) + max 0 (a.x - max b.x b.x) :=
    add_nonneg (le_max_left _ _) (le_max_left _ _)
  have hy : (0 : ℚ) ≤ max 0 (min b.y b.y - a.y) + max 0 (a.y - max b.y b.y) :=
    add_nonneg (le_max_left _ _) (le_max_left _ _)
  have hz : (0 : ℚ) < max 0 (min b.z b.z - a.z) + max 0 (a.z - max b.z b.z) := by
    rw [min_self, max_self]
    rcases lt_or_gt_of_ne hne with h | h
    · have : (0 : ℚ) < max 0 (b.z - a.z) := lt_max_of_lt_right (by linarith)
      linarith [le_max_left (0 : ℚ) (a.z - b.z)]
    · have : (0 : ℚ) < max 0 (a.z - b.z) := lt_max_of_lt_right (by linarith)
      linarith [le_max_left (0 : ℚ) (b.z - a.z)]
  rw [h0]
  show (0 : ℚ) < (max 0 (min b.x b.x - a.x) + max 0 (a.x - max b.x b.x)) +
    (max 0 (min b.y b.y - a.y) + max 0 (a.y - max b.y b.y)) +
    (max 0 (min b.z b.z - a.z) + max 0 (a.z - max b.z b.z))
  linarith

/-- An instance of C4: the point (5,5,5) and the subdivided tree. -/
theorem pfindrt_putrt_witness :
    walkable scenarioTree = true ∧
    ∃ t1, putrt boxlib scenarioTree (some ⟨5, 5, 5⟩) = some t1 ∧
      (pfindrt t1 (some ⟨5, 5, 5⟩)).isSome = true :=
  ⟨by decide, pfindrt_putrt boxlib scenarioTree ⟨5, 5, 5⟩ (by decide)⟩

/-- An instance of C10: (100,100,100) is found in the second leaf of the subdivided tree. -/
theorem pfindrt_first_leaf_witness :
    wellFormed scenarioTree = true ∧ pfindrt scenarioTree (some ⟨100, 100, 100⟩) = some [true] ∧
    ((pfindrt scenarioTree (some ⟨100, 100, 100⟩)).isSome = true ↔
      (⟨100, 100, 100⟩ : point) ∈ leafPoints scenarioTree) :=
  ⟨by decide, by decide, (pfindrt_first_leaf scenarioTree ⟨100, 100, 100⟩ (by decide)).1⟩

/-! ## The iteration bounds are never reached -/

theorem swapout_length (pa : parray) (i : Nat) (q : point) (h : pa[i]? = some q) :
    (swapout pa i).length + 1 = pa.length := by
  have := (swapout_perm pa i q h).length_eq
  simpa using this

/-- The bound on the iterations of `rempa` is never reached: more fuel gives the same
result. -/
theorem rempaLoop_fuel (p : point) (fuel k i : Nat) (pa : parray)
    (h : pa.length ≤ i + fuel) : rempaLoop p (fuel + k) i pa = rempaLoop p fuel i pa := by
  induction fuel generalizing i pa with
  | zero =>
    have hn : pa[i]? = none := List.getElem?_eq_none (by omega)
    cases k with
    | zero => rfl
    | succ k => simp [rempaLoop, hn]
  | succ n ih =>
    rw [show n + 1 + k = (n + k) + 1 by omega]
    unfold rempaLoop
    cases hq : pa[i]? with
    | none => rfl
    | some q =>
      have hl := swapout_length pa i q hq
      simp only
      split
      · exact ih (i + 1) (swapout pa i) (by omega)
      · exact ih (i + 1) pa (by omega)

theorem rempaLoop_length_le (p : point) (fuel i : Nat) (pa : parray) :
    (rempaLoop p fuel i pa).length ≤ pa.length := by
  induction fuel generalizing i pa with
  | zero => exact le_refl _
  | succ n ih =>
    unfold rempaLoop
    cases hq : pa[i]? with
    | none => exact le_refl _
    | some q =>
      have hl := swapout_length pa i q hq
      simp only
      split
      · exact le_trans (ih (i + 1) (swapout pa i)) (by omega)
      · exact ih (i + 1) pa

/-- The bound on the iterations of the leaf loop of `remrt` is never reached. -/
theorem remrtLoop_fuel (p : point) (fuel k i : Nat) (pa : parray)
    (h : pa.length ≤ i + fuel) : remrtLoop p (fuel + k) i pa = remrtLoop p fuel i pa := by
  induction fuel generalizing i pa with
  | zero =>
    have hn : pa[i]? = none := List.getElem?_eq_none (by omega)
    cases k with
    | zero => rfl
    | succ k => simp [remrtLoop, hn]
  | succ n ih =>
    rw [show n + 1 + k = (n + k) + 1 by omega]
    unfold remrtLoop
    cases hq : pa[i]? with
    | none => rfl
    | some q =>
      have hl := rempaLoop_length_le p pa.length 0 pa
      simp only
      split
      · exact ih (i + 1) (rempa pa p) (by unfold rempa; omega)
      · exact ih (i + 1) pa (by omega)

/-- A result of `subrt` does not depend on the depth bound: a larger bound gives the same
tree and flag. -/
theorem subrt_fuel_mono (R : rectlib) (fuel k : Nat) (t : rtree) (r : rtree × Bool)
    (h : subrt R fuel t = .ok r) : subrt R (fuel + k) t = .ok r := by
  induction fuel generalizing t r with
  | zero => simp [subrt] at h
  | succ n ih =>
    rw [show n + 1 + k = (n + k) + 1 by omega]
    cases t with
    | null => simp [subrt] at h
    | node pa mbr leaf s1 s2 =>
      cases leaf with
      | false =>
        simp only [subrt, Bool.false_eq_true, if_false] at h ⊢
        cases h1 : subrt R n s1 with
        | error e => simp only [h1] at h; cases h
        | ok a =>
          obtain ⟨a1, f1⟩ := a
          simp only [h1] at h
          rw [ih s1 _ h1]
          cases h2 : subrt R n s2 with
          | error e => simp only [h2] at h; cases h
          | ok b =>
            obtain ⟨b1, f2⟩ := b
            simp only [h2] at h
            rw [ih s2 _ h2]
            exact h
      | true =>
        simp only [subrt, if_true] at h ⊢
        cases hs : sdevrt (node pa mbr true s1 s2) (some zeroPoint) (some zeroPoint) with
        | none => simp only [hs] at h; cases h
        | some v =>
          obtain ⟨sq, max, min⟩ := v
          simp only [hs] at h ⊢
          by_cases hex : sq > maxsdev ^ 2
          · simp only [hex, if_true] at h ⊢
            cases hre : reinsert R (node pa mbr false (freshChild max) (freshChild min)) pa with
            | none => simp only [hre] at h; cases h
            | some c =>
              cases c with
              | null => simp only [hre] at h; cases h
              | node pa1 mbr1 leaf1 c1 c2 =>
                simp only [hre] at h ⊢
                cases h1 : subrt R n c1 with
                | error e => simp only [h1] at h; cases h
                | ok a =>
                  obtain ⟨a1, f1⟩ := a
                  simp only [h1] at h
                  rw [ih c1 _ h1]
                  cases h2 : subrt R n c2 with
                  | error e => simp only [h2] at h; cases h
                  | ok b =>
                    obtain ⟨b1, f2⟩ := b
                    simp only [h2] at h
                    rw [ih c2 _ h2]
                    exact h
          · simp only [hex, if_false] at h ⊢
            exact h

/-! ## Bulk insertion, merging, and the frame of the operations -/

theorem memcpyAt_length (dst src : List point) (off n : Nat) (h1 : off + n ≤ dst.length)
    (h2 : n ≤ src.length) : (memcpyAt dst off src n).length = dst.length := by
  simp only [memcpyAt, List.length_append, List.length_take, List.length_drop]
  omega

theorem bputrt_clear_flag (R : rectlib) (fuel : Nat) (pa : parray) (mbr : rect)
    (s1 s2 : rtree) (p : Nat → point) (n : Nat) :
    bputrt R fuel (node pa mbr false s1 s2) p n = .ok (node pa mbr false s1 s2) := by
  simp [bputrt]

/-- C12. For every branch of a well-formed tree, every batch and every `n`, `bputrt` returns
with the tree exactly as it was: nothing is appended, subdivided or resized. -/
theorem bputrt_branch (R : rectlib) (fuel : Nat) (t : rtree) (p : Nat → point) (n : Nat)
    (hw : wellFormed t = true) (hb : childless t = false) :
    bputrt R fuel t p n = .ok t := by
  cases t with
  | null => simp [wellFormed] at hw
  | node pa mbr leaf s1 s2 =>
    rcases wellFormed_cases pa mbr leaf s1 s2 hw with ⟨_, h1, h2⟩ | ⟨hl, _, _⟩
    · subst h1 h2
      simp [childless, isNull] at hb
    · subst hl
      exact bputrt_clear_flag R fuel pa mbr s1 s2 p n

/-- An instance of C12: a batch of two points offered to the subdivided tree. -/
theorem bputrt_branch_witness :
    wellFormed scenarioTree = true ∧ childless scenarioTree = false ∧
    bputrt boxlib 5 scenarioTree diagonalBatch 2 = .ok scenarioTree :=
  ⟨by decide, by decide, bputrt_branch boxlib 5 scenarioTree diagonalBatch 2 (by decide) (by decide)⟩

/-- With block sizes left aside, the leaf case of `psinrrt` writes the header and then the
accepted points in container order. -/
theorem psinrrt_leaf (R : rectlib) (pa : parray) (mbr : rect) (leaf : Bool) (s1 s2 : rtree)
    (q : rect) (h : rederive leaf s1 s2 = true) :
    psinrrt R (node pa mbr leaf s1 s2) (some q) =
      some (node pa mbr true s1 s2,
        some (setxyz (((pa.filter (R.pinr q)).length : ℚ) + 1) (-1) (-1) ::
          pa.filter (R.pinr q))) := by
  simp [psinrrt, h]

/-- The block that the leaf case of `psinrrt` returns is too short for the header and the
accepted points, whenever a point takes at least two bytes. -/
theorem psinrrtBlock_short (size : Nat) (hs : 2 ≤ size) (R : rectlib) (pa : parray) (q : rect)
    (buf : List point) (h : psinrrtBlock size R pa q = some buf) :
    buf.length < (pa.filter (R.pinr q)).length + 1 := by
  unfold psinrrtBlock at h
  split at h
  · simp only [Option.some.injEq] at h
    subst h
    have h1 : slots size ((pa.filter (R.pinr q)).length + 1) <
        (pa.filter (R.pinr q)).length + 1 :=
      Nat.div_lt_self (Nat.succ_pos _) hs
    have h2 := List.length_take_le (slots size ((pa.filter (R.pinr q)).length + 1))
      (setxyz (((pa.filter (R.pinr q)).length : ℚ) + 1) (-1) (-1) :: pa.filter (R.pinr q))
    omega
  · cases h

/-- When every point of a non-empty leaf is accepted, or the leaf is empty, the leaf case of
`psinrrt` writes outside the block it allocated. -/
theorem psinrrtBlock_overflow (size : Nat) (hs : 2 ≤ size) (R : rectlib) (pa : parray)
    (q : rect) (h : (pa.filter (R.pinr q)).length = pa.length) :
    psinrrtBlock size R pa q = none := by
  have hslots : slots size (size * pa.length + 1) = pa.length := by
    unfold slots
    rw [Nat.add_comm, Nat.add_mul_div_left _ _ (by omega : 0 < size),
      Nat.div_eq_of_lt (by omega : 1 < size)]
    omega
  simp [psinrrtBlock, hslots, h]

/-- C17, at the leaf of the scenario and the box (0,0,0)-(1,1,1), a point being three doubles
(24 bytes). Block sizes aside, the header (3,-1,-1), (0,0,0) and (1,1,1) are written; but
`realloc(buf, numpin)` cuts the block to 3 bytes, so that no element lies in the buffer that
is returned; and on a leaf all of whose points are accepted the last write falls outside the
block that was allocated. -/
theorem psinrrt_block_scenario :
    psinrrt boxlib scenarioLeaf (some scenarioBox) =
      some (scenarioLeaf, some [⟨3, -1, -1⟩, ⟨0, 0, 0⟩, ⟨1, 1, 1⟩]) ∧
    psinrrtBlock 24 boxlib scenarioPoints scenarioBox = some [] ∧
    psinrrtBlock 24 boxlib [⟨0, 0, 0⟩] scenarioBox = none := by
  refine ⟨by decide!, by decide!, by decide!⟩

/-- C18, at a childless node holding (1,1,1) whose stored flag is clear. `putrt`, `remrt` and
`psinrrt` treat it as the same node with the flag set, but `pfindrt` does not find the point,
`bputrt` refuses the batch and `subrt` dereferences a null child. -/
theorem stale_flag_not_rederived :
    putrt boxlib staleLeaf (some ⟨2, 2, 2⟩) = putrt boxlib flaggedLeaf (some ⟨2, 2, 2⟩) ∧
    remrt staleLeaf (some ⟨1, 1, 1⟩) = remrt flaggedLeaf (some ⟨1, 1, 1⟩) ∧
    psinrrt boxlib staleLeaf (some scenarioBox) = psinrrt boxlib flaggedLeaf (some scenarioBox) ∧
    pfindrt staleLeaf (some ⟨1, 1, 1⟩) = none ∧
    pfindrt flaggedLeaf (some ⟨1, 1, 1⟩) = some [] ∧
    bputrt boxlib 3 staleLeaf diagonalBatch 2 = .ok staleLeaf ∧
    bputrt boxlib 3 flaggedLeaf diagonalBatch 2 =
      .ok (node [⟨1, 1, 1⟩, ⟨0, 0, 0⟩, ⟨1, 1, 1⟩] ⟨zeroPoint, zeroPoint⟩ true null null) ∧
    subrt boxlib 3 staleLeaf = .error .nullptr ∧
    subrt boxlib 3 flaggedLeaf = .ok (flaggedLeaf, false) := by
  refine ⟨by decide!, by decide!, by decide!, by decide!, by decide!, by decide!, by decide!,
    by decide!, by decide!⟩

/-- On a leaf whose dispersion exceeds the threshold, `sdevrt` hands back a stored point of
greatest height and a stored point of least height. -/
theorem exceeds_seeds (pa : parray) (mbr : rect) (s1 s2 : rtree)
    (hex : exceeds (node pa mbr true s1 s2) = true) :
    ∃ sq M N, sdevrt (node pa mbr true s1 s2) (some zeroPoint) (some zeroPoint) =
        some (sq, some M, some N) ∧ sq > maxsdev ^ 2 ∧ M ∈ pa ∧ N ∈ pa ∧
      (∀ q ∈ pa, N.z ≤ q.z ∧ q.z ≤ M.z) := by
  have h2 : 2 ≤ pa.length := by
    by_contra hc
    simp [exceeds, sdevrt_small pa mbr true s1 s2 _ _ (by omega : pa.length ≤ 1),
      maxsdev] at hex
    norm_num at hex
  cases pa with
  | nil => simp at h2
  | cons first rest =>
    have hs := sdevrt_large first rest mbr s1 s2 zeroPoint zeroPoint h2
    simp only [exceeds, hs, decide_eq_true_eq] at hex
    obtain ⟨hM, hmax⟩ := sdev_max_spec first rest
    obtain ⟨hN, hmin⟩ := sdev_min_spec first rest
    exact ⟨_, _, _, hs, hex, hM, hN, fun q hq => ⟨hmin q hq, hmax q hq⟩⟩

/-- The rectangle of a node is not touched by `subrt`. -/
theorem subrt_mbrOf (R : rectlib) (fuel : Nat) (t t1 : rtree) (b : Bool)
    (h : subrt R fuel t = .ok (t1, b)) : t1.mbrOf = t.mbrOf := by
  cases fuel with
  | zero => simp [subrt] at h
  | succ n =>
    cases t with
    | null => simp [subrt] at h
    | node pa mbr leaf s1 s2 =>
      cases leaf with
      | false =>
        simp only [subrt, Bool.false_eq_true, if_false] at h
        cases h1 : subrt R n s1 with
        | error e => simp only [h1] at h; cases h
        | ok a =>
          obtain ⟨a1, f1⟩ := a
          simp only [h1] at h
          cases h2 : subrt R n s2 with
          | error e => simp only [h2] at h; cases h
          | ok c =>
            obtain ⟨c1, f2⟩ := c
            simp only [h2] at h
            cases h
            rfl
      | true =>
        by_cases hex : exceeds (node pa mbr true s1 s2) = true
        · obtain ⟨sq, M, N, hs, hgt, _⟩ := exceeds_seeds pa mbr s1 s2 hex
          rw [subrt_split R n pa mbr s1 s2 sq M N hs hgt] at h
          split at h
          · cases h
          · split at h
            · cases h
            · cases h; rfl
        · rw [subrt_keep R n pa mbr s1 s2 (by simpa using hex)] at h
          cases h
          rfl

/-- The tree that `subrt` returns after splitting a leaf: an emptied node with the flag
clear, whose children carry the two seed boxes. -/
theorem subrt_split_result (R : rectlib) (fuel : Nat) (pa : parray) (mbr : rect)
    (s1 s2 : rtree) (sq : ℚ) (M N : point)
    (hs : sdevrt (node pa mbr true s1 s2) (some zeroPoint) (some zeroPoint) =
      some (sq, some M, some N))
    (hgt : sq > maxsdev ^ 2) (t1 : rtree) (b : Bool)
    (h : subrt R fuel (node pa mbr true s1 s2) = .ok (t1, b)) :
    ∃ a1 a2, t1 = node [] mbr false a1 a2 ∧
      a1.mbrOf = some ⟨M, M⟩ ∧ a2.mbrOf = some ⟨N, N⟩ := by
  cases fuel with
  | zero => simp [subrt] at h
  | succ n =>
    rw [subrt_split R n pa mbr s1 s2 sq M N hs hgt] at h
    split at h
    · cases h
    · rename_i a1 f1 h1
      split at h
      · cases h
      · rename_i a2 f2 h2
        cases h
        exact ⟨a1, a2, rfl, by rw [subrt_mbrOf R n _ a1 f1 h1]; rfl,
          by rw [subrt_mbrOf R n _ a2 f2 h2]; rfl⟩

/-- On a node whose flag is clear `subrt` returns the flag false. -/
theorem subrt_branch_flag (R : rectlib) (fuel : Nat) (pa : parray) (mbr : rect)
    (s1 s2 t1 : rtree) (b : Bool)
    (h : subrt R fuel (node pa mbr false s1 s2) = .ok (t1, b)) : b = false := by
  cases fuel with
  | zero => simp [subrt] at h
  | succ n =>
    simp only [subrt, Bool.false_eq_true, if_false] at h
    cases h1 : subrt R n s1 with
    | error e => simp only [h1] at h; cases h
    | ok a =>
      obtain ⟨a1, f1⟩ := a
      simp only [h1] at h
      cases h2 : subrt R n s2 with
      | error e => simp only [h2] at h; cases h
      | ok c =>
        obtain ⟨c1, f2⟩ := c
        simp only [h2] at h
        cases h
        rfl

/-- With a cost function that returns equal costs throughout, the leaf of the scenario is
never done: whatever its rectangle, every depth of recursion is used up. -/
theorem subrt_flat_nofuel (fuel : Nat) (mbr : rect) :
    subrt flatlib fuel (node scenarioPoints mbr true null null) = .error .nofuel := by
  induction fuel generalizing mbr with
  | zero => rfl
  | succ n ih =>
    have hs : sdevrt (node scenarioPoints mbr true null null) (some zeroPoint)
        (some zeroPoint) = some (7355 / 3, some ⟨100, 100, 100⟩, some ⟨0, 0, 0⟩) := by
      have e : scenarioPoints = ⟨0, 0, 0⟩ :: [⟨1, 1, 1⟩, ⟨2, 2, 2⟩, ⟨100, 100, 100⟩] := rfl
      rw [e, sdevrt_large _ _ mbr null null zeroPoint zeroPoint (by decide)]
      decide!
    have hgt : (7355 / 3 : ℚ) > maxsdev ^ 2 := by norm_num [maxsdev]
    rw [subrt_split flatlib n scenarioPoints mbr null null _ _ _ hs hgt]
    have hf : scenarioPoints.filter (toSub1 flatlib ⟨⟨100, 100, 100⟩, ⟨100, 100, 100⟩⟩
        ⟨⟨0, 0, 0⟩, ⟨0, 0, 0⟩⟩) = scenarioPoints := by decide!
    rw [hf]
    have hl : (scenarioPoints.length != 0) = true := by decide
    rw [hl, ih]

/-- C15, at the leaf of the scenario with a cost function that gives every point the same
cost for both seeds. Every point is routed to `sub1`, which then holds the same points in the
same order, and `subrt` does not return: no depth of recursion is enough. -/
theorem subrt_flat_diverges :
    scenarioPoints.filter (toSub1 flatlib ⟨⟨100, 100, 100⟩, ⟨100, 100, 100⟩⟩
      ⟨⟨0, 0, 0⟩, ⟨0, 0, 0⟩⟩) = scenarioPoints ∧
    ∀ fuel, subrt flatlib fuel scenarioLeaf = .error .nofuel :=
  ⟨by decide!, fun fuel => subrt_flat_nofuel fuel ⟨zeroPoint, zeroPoint⟩⟩

/-- With a cost function that tells the seeds apart, `subrt` (zero-filled blocks) returns on
every well-formed tree in whose leaves the absolute heights add up to less than 2^31, within
the depth `subrtBound`. -/
theorem subrt_total_tree (R : rectlib) (hsep : separates R) (t : rtree)
    (hw : wellFormed t = true) (hb : boundedrt t = true) :
    ∃ t1 b, subrt R (subrtBound t) t = .ok (t1, b) := by
  induction t with
  | null => simp [wellFormed] at hw
  | node pa mbr leaf s1 s2 ih1 ih2 =>
    rcases wellFormed_cases pa mbr leaf s1 s2 hw with ⟨hl, _, _⟩ | ⟨hl, w1, w2⟩
    · subst hl
      simp only [subrtBound, if_true]
      exact subrt_total R hsep pa.length pa mbr s1 s2 (le_refl _)
        (by simpa [boundedrt] using hb)
    · subst hl
      have hb' : boundedrt s1 = true ∧ boundedrt s2 = true := by
        simpa [boundedrt] using hb
      obtain ⟨a1, f1, h1⟩ := ih1 w1 hb'.1
      obtain ⟨a2, f2, h2⟩ := ih2 w2 hb'.2
      have e1 := subrt_fuel_mono R (subrtBound s1) (max (subrtBound s1) (subrtBound s2) -
        subrtBound s1) s1 _ h1
      have e2 := subrt_fuel_mono R (subrtBound s2) (max (subrtBound s1) (subrtBound s2) -
        subrtBound s2) s2 _ h2
      rw [Nat.add_sub_cancel' (le_max_left _ _)] at e1
      rw [Nat.add_sub_cancel' (le_max_right _ _)] at e2
      refine ⟨node pa mbr false a1 a2, false, ?_⟩
      simp only [subrtBound, Bool.false_eq_true, if_false, subrt, e1, e2]

theorem subtreeAt_nil (t : rtree) : subtreeAt t [] = t := by
  cases t <;> rfl

/-- What `subrt` returns is a fixed point of `subrt`, and none of its leaves has a dispersion
above the threshold. -/
theorem subrt_settled (R : rectlib) (fuel : Nat) (t t1 : rtree) (b : Bool)
    (h : subrt R fuel t = .ok (t1, b)) :
    subrt R fuel t1 = .ok (t1, false) ∧
      ∀ path ∈ leafPaths t1, exceeds (subtreeAt t1 path) = false := by
  induction fuel generalizing t t1 b with
  | zero => simp [subrt] at h
  | succ n ih =>
    have branchCase : ∀ (pa : parray) (mbr : rect) (c1 c2 a1 a2 : rtree) (f1 f2 : Bool),
        subrt R n c1 = .ok (a1, f1) → subrt R n c2 = .ok (a2, f2) →
        subrt R (n + 1) (node pa mbr false a1 a2) = .ok (node pa mbr false a1 a2, false) ∧
          ∀ path ∈ leafPaths (node pa mbr false a1 a2),
            exceeds (subtreeAt (node pa mbr false a1 a2) path) = false := by
      intro pa mbr c1 c2 a1 a2 f1 f2 h1 h2
      obtain ⟨i1, l1⟩ := ih c1 a1 f1 h1
      obtain ⟨i2, l2⟩ := ih c2 a2 f2 h2
      constructor
      · simp only [subrt, Bool.false_eq_true, if_false, i1, i2]
      · intro path hp
        simp only [leafPaths, Bool.false_eq_true, if_false, List.mem_append,
          List.mem_map] at hp
        rcases hp with ⟨x, hx, rfl⟩ | ⟨x, hx, rfl⟩
        · simpa [subtreeAt] using l1 x hx
        · simpa [subtreeAt] using l2 x hx
    cases t with
    | null => simp [subrt] at h
    | node pa mbr leaf s1 s2 =>
      cases leaf with
      | false =>
        simp only [subrt, Bool.false_eq_true, if_false] at h
        cases h1 : subrt R n s1 with
        | error e => simp only [h1] at h; cases h
        | ok a =>
          obtain ⟨a1, f1⟩ := a
          simp only [h1] at h
          cases h2 : subrt R n s2 with
          | error e => simp only [h2] at h; cases h
          | ok c =>
            obtain ⟨a2, f2⟩ := c
            simp only [h2] at h
            cases h
            exact branchCase pa mbr s1 s2 a1 a2 f1 f2 h1 h2
      | true =>
        cases hex : exceeds (node pa mbr true s1 s2) with
        | false =>
          have hk := subrt_keep R n pa mbr s1 s2 hex
          rw [hk] at h
          cases h
          refine ⟨hk, ?_⟩
          intro path hp
          simp only [leafPaths, if_true, List.mem_singleton] at hp
          subst hp
          rw [subtreeAt_nil]
          exact hex
        | true =>
          obtain ⟨sq, M, N, hs, hgt, _⟩ := exceeds_seeds pa mbr s1 s2 hex
          rw [subrt_split R n pa mbr s1 s2 sq M N hs hgt] at h
          split at h
          · cases h
          · rename_i a1 f1 h1
            split at h
            · cases h
            · rename_i a2 f2 h2
              cases h
              exact branchCase [] mbr _ _ a1 a2 f1 f2 h1 h2

theorem subtreeAt_null (path : List Bool) : subtreeAt null path = null := by
  cases path <;> rfl

theorem subtreeAt_replaceAt_self (t new : rtree) (path : List Bool)
    (hp : path ∈ leafPaths t) : subtreeAt (replaceAt t path new) path = new := by
  induction t generalizing path with
  | null => simp [leafPaths] at hp
  | node pa mbr leaf s1 s2 ih1 ih2 =>
    cases leaf with
    | true =>
      simp only [leafPaths, if_true, List.mem_singleton] at hp
      subst hp
      simp only [replaceAt]
      exact subtreeAt_nil new
    | false =>
      simp only [leafPaths, Bool.false_eq_true, if_false, List.mem_append, List.mem_map] at hp
      rcases hp with ⟨x, hx, rfl⟩ | ⟨x, hx, rfl⟩
      · simpa [replaceAt, subtreeAt] using ih1 x hx
      · simpa [replaceAt, subtreeAt] using ih2 x hx

/-- Replacing one leaf leaves every other leaf as it was. -/
theorem subtreeAt_replaceAt_other (t new : rtree) (path other : List Bool)
    (hp : path ∈ leafPaths t) (ho : other ∈ leafPaths t) (hne : other ≠ path) :
    subtreeAt (replaceAt t path new) other = subtreeAt t other := by
  induction t generalizing path other with
  | null => simp [leafPaths] at hp
  | node pa mbr leaf s1 s2 ih1 ih2 =>
    cases leaf with
    | true =>
      simp only [leafPaths, if_true, List.mem_singleton] at hp ho
      exact absurd (ho.trans hp.symm) hne
    | false =>
      simp only [leafPaths, Bool.false_eq_true, if_false, List.mem_append, List.mem_map]
        at hp ho
      rcases hp with ⟨x, hx, rfl⟩ | ⟨x, hx, rfl⟩ <;> rcases ho with ⟨y, hy, rfl⟩ | ⟨y, hy, rfl⟩
      · have : y ≠ x := fun e => hne (by rw [e])
        simpa [replaceAt, subtreeAt] using ih1 x y hx hy this
      · simp [replaceAt, subtreeAt]
      · simp [replaceAt, subtreeAt]
      · have : y ≠ x := fun e => hne (by rw [e])
        simpa [replaceAt, subtreeAt] using ih2 x y hx hy this

/-- Replacing a leaf by a node of the same flag and rectangle, without children, keeps the
shape, the flags and the rectangles of the tree. -/
theorem erasePa_replaceAt (t : rtree) (path : List Bool) (pa pa1 : parray) (mbr : rect)
    (hp : path ∈ leafPaths t) (hs : subtreeAt t path = node pa mbr true null null) :
    erasePa (replaceAt t path (node pa1 mbr true null null)) = erasePa t := by
  induction t generalizing path with
  | null => simp [leafPaths] at hp
  | node pa0 mbr0 leaf s1 s2 ih1 ih2 =>
    cases leaf with
    | true =>
      simp only [leafPaths, if_true, List.mem_singleton] at hp
      subst hp
      rw [subtreeAt_nil] at hs
      cases hs
      rfl
    | false =>
      simp only [leafPaths, Bool.false_eq_true, if_false, List.mem_append, List.mem_map] at hp
      rcases hp with ⟨x, hx, rfl⟩ | ⟨x, hx, rfl⟩
      · have := ih1 x hx (by simpa [subtreeAt] using hs)
        simp [replaceAt, erasePa, this]
      · have := ih2 x hx (by simpa [subtreeAt] using hs)
        simp [replaceAt, erasePa, this]

theorem wellFormed_mbrOf (t : rtree) (h : wellFormed t = true) : ∃ m, t.mbrOf = some m := by
  cases t with
  | null => simp [wellFormed] at h
  | node pa mbr leaf s1 s2 => exact ⟨mbr, rfl⟩

/-- On a well-formed tree `putrt` replaces one leaf by the same leaf with the point appended
to its container. -/
theorem putrt_replaces (R : rectlib) (p : point) (t : rtree) (hw : wellFormed t = true) :
    ∃ path pa mbr, path ∈ leafPaths t ∧ subtreeAt t path = node pa mbr true null null ∧
      putrt R t (some p) =
        some (replaceAt t path (node (pa ++ [p]) mbr true null null)) := by
  induction t with
  | null => simp [wellFormed] at hw
  | node pa mbr leaf s1 s2 ih1 ih2 =>
    rcases wellFormed_cases pa mbr leaf s1 s2 hw with ⟨hl, h1, h2⟩ | ⟨hl, w1, w2⟩
    · subst hl h1 h2
      refine ⟨[], pa, mbr, by simp [leafPaths], rfl, ?_⟩
      rw [putrt_leaf R pa mbr true null null p rfl]
      rfl
    · subst hl
      have hr : rederive false s1 s2 = false :=
        rederive_node_left false s1 s2 (wellFormed_isNode s1 w1)
      obtain ⟨m1, hm1⟩ := wellFormed_mbrOf s1 w1
      obtain ⟨m2, hm2⟩ := wellFormed_mbrOf s2 w2
      rw [putrt_branch R pa mbr m1 m2 false s1 s2 p hr hm1 hm2]
      by_cases hc : R.rszsum m1 p ≥ R.rszsum m2 p
      · obtain ⟨path, pa1, mbr1, hp, hs, he⟩ := ih1 w1
        refine ⟨false :: path, pa1, mbr1, ?_, by simpa [subtreeAt] using hs, ?_⟩
        · simp only [leafPaths, Bool.false_eq_true, if_false, List.mem_append, List.mem_map]
          exact Or.inl ⟨path, hp, rfl⟩
        · simp [hc, he, replaceAt]
      · obtain ⟨path, pa1, mbr1, hp, hs, he⟩ := ih2 w2
        refine ⟨true :: path, pa1, mbr1, ?_, by simpa [subtreeAt] using hs, ?_⟩
        · simp only [leafPaths, Bool.false_eq_true, if_false, List.mem_append, List.mem_map]
          exact Or.inr ⟨path, hp, rfl⟩
        · simp [hc, he, replaceAt]

/-- C16. For every well-formed tree and every present point `p`, `putrt` returns a tree that
differs from the old one in exactly one leaf: that leaf has `p` appended at the end of its
container, with its rectangle, its flag and its absence of children as before; every other
leaf is the same; the shape, the flags and the rectangles of all nodes are the same; and the
total point count has grown by one. -/
theorem putrt_frame (R : rectlib) (t : rtree) (p : point) (hw : wellFormed t = true) :
    ∃ t1 path pa mbr, putrt R t (some p) = some t1 ∧
      path ∈ leafPaths t ∧ subtreeAt t path = node pa mbr true null null ∧
      t1 = replaceAt t path (node (pa ++ [p]) mbr true null null) ∧
      subtreeAt t1 path = node (pa ++ [p]) mbr true null null ∧
      (∀ other ∈ leafPaths t, other ≠ path → subtreeAt t1 other = subtreeAt t other) ∧
      erasePa t1 = erasePa t ∧
      countrt t1 = countrt t + 1 := by
  obtain ⟨path, pa, mbr, hp, hs, he⟩ := putrt_replaces R p t hw
  refine ⟨_, path, pa, mbr, he, hp, hs, rfl, subtreeAt_replaceAt_self t _ path hp,
    fun other ho hne => subtreeAt_replaceAt_other t _ path other hp ho hne,
    erasePa_replaceAt t path pa _ mbr hp hs, ?_⟩
  have := (putrt_leafPoints R p t _ he).length_eq
  simpa [countrt] using this

/-- An instance of C16: (1,1,1) put into the subdivided tree. -/
theorem putrt_frame_witness :
    wellFormed scenarioTree = true ∧
    ∃ t1 path pa mbr, putrt boxlib scenarioTree (some ⟨1, 1, 1⟩) = some t1 ∧
      path ∈ leafPaths scenarioTree ∧
      subtreeAt scenarioTree path = node pa mbr true null null ∧
      t1 = replaceAt scenarioTree path (node (pa ++ [⟨1, 1, 1⟩]) mbr true null null) ∧
      subtreeAt t1 path = node (pa ++ [⟨1, 1, 1⟩]) mbr true null null ∧
      (∀ other ∈ leafPaths scenarioTree, other ≠ path →
        subtreeAt t1 other = subtreeAt scenarioTree other) ∧
      erasePa t1 = erasePa scenarioTree ∧
      countrt t1 = countrt scenarioTree + 1 :=
  ⟨by decide, putrt_frame boxlib scenarioTree ⟨1, 1, 1⟩ (by decide)⟩

/-- A pass of `rempa` removes copies of `p` only. -/
theorem rempaLoop_count_ne (p q : point) (hne : q ≠ p) (fuel i : Nat) (pa : parray) :
    (rempaLoop p fuel i pa).count q = pa.count q := by
  induction fuel generalizing i pa with
  | zero => rfl
  | succ n ih =>
    unfold rempaLoop
    cases hx : pa[i]? with
    | none => rfl
    | some x =>
      by_cases hpx : peq p x = true
      · have e : p = x := (peq_iff p x).1 hpx
        subst e
        simp only [hpx, if_true]
        rw [ih (i + 1) (swapout pa i)]
        have := (swapout_perm pa i p hx).count_eq q
        rw [List.count_cons_of_ne hne] at this
        exact this
      · simp only [hpx, Bool.false_eq_true, if_false]
        exact ih (i + 1) pa

/-- The leaf loop of `remrt` removes copies of `p` only. -/
theorem remrtLoop_count_ne (p q : point) (hne : q ≠ p) (fuel i : Nat) (pa : parray) :
    (remrtLoop p fuel i pa).count q = pa.count q := by
  induction fuel generalizing i pa with
  | zero => rfl
  | succ n ih =>
    unfold remrtLoop
    cases hx : pa[i]? with
    | none => rfl
    | some x =>
      by_cases hpx : peq p x = true
      · simp only [hpx, if_true]
        rw [ih (i + 1) (rempa pa p)]
        exact rempaLoop_count_ne p q hne pa.length 0 pa
      · simp only [hpx, Bool.false_eq_true, if_false]
        exact ih (i + 1) pa

/-- C19. For every well-formed tree and every point `p`, `remrt` returns a tree with the
same shape, flags and rectangles (a leaf that lost all its points is still a leaf), in which
every node holds as many copies of each point other than `p` as before. -/
theorem remrt_frame (t : rtree) (p : point) (hw : wellFormed t = true) :
    ∃ t2, remrt t (some p) = some t2 ∧ erasePa t2 = erasePa t ∧
      ∀ (path : List Bool) (q : point), q ≠ p →
        (paOf (subtreeAt t2 path)).count q = (paOf (subtreeAt t path)).count q := by
  induction t with
  | null => simp [wellFormed] at hw
  | node pa mbr leaf s1 s2 ih1 ih2 =>
    rcases wellFormed_cases pa mbr leaf s1 s2 hw with ⟨hl, h1, h2⟩ | ⟨hl, w1, w2⟩
    · subst hl h1 h2
      refine ⟨_, remrt_leaf pa mbr true null null p rfl, rfl, ?_⟩
      intro path q hne
      cases path with
      | nil =>
        simp only [subtreeAt, paOf]
        exact remrtLoop_count_ne p q hne pa.length 0 pa
      | cons c rest =>
        cases c <;> simp [subtreeAt, subtreeAt_null, paOf]
    · subst hl
      have hr : rederive false s1 s2 = false :=
        rederive_node_left false s1 s2 (wellFormed_isNode s1 w1)
      obtain ⟨a, ha, ea, ca⟩ := ih1 w1
      obtain ⟨c, hc, ec, cc⟩ := ih2 w2
      refine ⟨node pa mbr false a c, ?_, ?_, ?_⟩
      · rw [remrt_branch pa mbr false s1 s2 p hr, ha, hc]
        rfl
      · simp [erasePa, ea, ec]
      · intro path q hne
        cases path with
        | nil => simp [subtreeAt, paOf]
        | cons d rest =>
          cases d
          · simpa [subtreeAt] using ca rest q hne
          · simpa [subtreeAt] using cc rest q hne

/-- An instance of C19: (2,2,2) removed from the subdivided tree. -/
theorem remrt_frame_witness :
    wellFormed scenarioTree = true ∧
    ∃ t2, remrt scenarioTree (some ⟨2, 2, 2⟩) = some t2 ∧
      erasePa t2 = erasePa scenarioTree ∧
      ∀ (path : List Bool) (q : point), q ≠ ⟨2, 2, 2⟩ →
        (paOf (subtreeAt t2 path)).count q = (paOf (subtreeAt scenarioTree path)).count q :=
  ⟨by decide, remrt_frame scenarioTree ⟨2, 2, 2⟩ (by decide)⟩

/-! ## Runs of `subrt` with blocks of any contents -/

/-- The conversion at a height that is not a value of `int`: the two totals of `sdevrt` on
`overflowLeaf` are the least `int` and 852516352, the mean is 426258176, and the dispersion
found is far above the threshold although the two heights are equal. -/
theorem sdevrt_overflow :
    dtoi 3000000000 = -2147483648 ∧
    ([⟨0, 0, 3000000000⟩, ⟨0, 0, 3000000000⟩].foldl sdevStep
      (0, ⟨0, 0, 3000000000⟩, ⟨0, 0, 3000000000⟩)).1 = 852516352 ∧
    sdevMean [⟨0, 0, 3000000000⟩, ⟨0, 0, 3000000000⟩] ⟨0, 0, 3000000000⟩ = 426258176 ∧
    exceeds overflowLeaf = true := by
  refine ⟨by decide!, by decide!, by decide!, by decide!⟩

theorem seedChild_zero (m : point) : seedChild zeroBlock m = freshChild (some m) := rfl

theorem seedChild_isNode (j : rawnode) (m : point) : (seedChild j m).isNull = false := rfl

theorem seedChild_mbrOf (j : rawnode) (m : point) : (seedChild j m).mbrOf = some ⟨m, m⟩ := rfl

/-- Every result of the function `subrt` is a run. -/
theorem subrt_run (R : rectlib) (fuel : Nat) (t t1 : rtree) (b : Bool)
    (h : subrt R fuel t = .ok (t1, b)) : subrtRun R t t1 b := by
  induction fuel generalizing t t1 b with
  | zero => simp [subrt] at h
  | succ n ih =>
    cases t with
    | null => simp [subrt] at h
    | node pa mbr leaf s1 s2 =>
      cases leaf with
      | false =>
        simp only [subrt, Bool.false_eq_true, if_false] at h
        cases h1 : subrt R n s1 with
        | error e => simp only [h1] at h; cases h
        | ok a =>
          obtain ⟨a1, f1⟩ := a
          simp only [h1] at h
          cases h2 : subrt R n s2 with
          | error e => simp only [h2] at h; cases h
          | ok c =>
            obtain ⟨a2, f2⟩ := c
            simp only [h2] at h
            cases h
            exact subrtRun.branch pa mbr s1 s2 a1 a2 f1 f2 (ih _ _ _ h1) (ih _ _ _ h2)
      | true =>
        cases hex : exceeds (node pa mbr true s1 s2) with
        | false =>
          rw [subrt_keep R n pa mbr s1 s2 hex] at h
          cases h
          exact subrtRun.keep pa mbr s1 s2 hex
        | true =>
          obtain ⟨sq, M, N, hs, hgt, _⟩ := exceeds_seeds pa mbr s1 s2 hex
          have hre := reinsert_childless R pa pa [] [] mbr ⟨M, M⟩ ⟨N, N⟩ false false
          rw [subrt_split R n pa mbr s1 s2 sq M N hs hgt] at h
          split at h
          · cases h
          · rename_i a1 f1 h1
            split at h
            · cases h
            · rename_i a2 f2 h2
              cases h
              exact subrtRun.split pa mbr s1 s2 sq M N zeroBlock zeroBlock pa mbr false _ _
                a1 a2 f1 f2 hs hgt hre (ih _ _ _ h1) (ih _ _ _ h2)

/-- The rectangle of a node is not touched by `putrt`. -/
theorem putrt_mbrOf (R : rectlib) (t t1 : rtree) (p : point)
    (h : putrt R t (some p) = some t1) : t1.mbrOf = t.mbrOf := by
  cases t with
  | null => simp [putrt] at h
  | node pa mbr leaf s1 s2 =>
    cases hl : rederive leaf s1 s2 with
    | true =>
      rw [putrt_leaf R pa mbr leaf s1 s2 p hl] at h
      cases h
      rfl
    | false =>
      cases hm1 : s1.mbrOf with
      | none => simp [putrt, hl, hm1] at h
      | some m1 =>
        cases hm2 : s2.mbrOf with
        | none => simp [putrt, hl, hm1, hm2] at h
        | some m2 =>
          rw [putrt_branch R pa mbr m1 m2 leaf s1 s2 p hl hm1 hm2] at h
          split at h
          · cases hs : putrt R s1 (some p) with
            | none => simp [hs] at h
            | some s =>
              simp only [hs, Option.map_some', Option.some.injEq] at h
              subst h
              rfl
          · cases hs : putrt R s2 (some p) with
            | none => simp [hs] at h
            | some s =>
              simp only [hs, Option.map_some', Option.some.injEq] at h
              subst h
              rfl

/-- While `subrt` reinserts, the rectangles of the two children stay what they were,
whatever the children hold. -/
theorem reinsert_children_mbr (R : rectlib) (qs : List point) (pa : parray) (mbr : rect)
    (s1 s2 t1 : rtree) (n1 : s1.isNull = false) (n2 : s2.isNull = false)
    (h : reinsert R (node pa mbr false s1 s2) qs = some t1) :
    ∃ c1 c2, t1 = node pa mbr false c1 c2 ∧ c1.mbrOf = s1.mbrOf ∧ c2.mbrOf = s2.mbrOf := by
  induction qs generalizing s1 s2 with
  | nil =>
    simp only [reinsert, Option.some.injEq] at h
    exact ⟨s1, s2, h.symm, rfl, rfl⟩
  | cons q qs ih =>
    simp only [reinsert] at h
    cases hq : putrt R (node pa mbr false s1 s2) (some q) with
    | none => simp [hq] at h
    | some a =>
      simp only [hq] at h
      have hl : rederive false s1 s2 = false := rederive_node_left false s1 s2 n1
      cases hm1 : s1.mbrOf with
      | none => simp [putrt, hl, hm1] at hq
      | some m1 =>
        cases hm2 : s2.mbrOf with
        | none => simp [putrt, hl, hm1, hm2] at hq
        | some m2 =>
          rw [putrt_branch R pa mbr m1 m2 false s1 s2 q hl hm1 hm2] at hq
          split at hq
          · cases hs : putrt R s1 (some q) with
            | none => simp [hs] at hq
            | some s =>
              simp only [hs, Option.map_some', Option.some.injEq] at hq
              subst hq
              obtain ⟨c1, c2, e, e1, e2⟩ := ih s s2 (putrt_isNode R s1 s _ hs) n2 h
              exact ⟨c1, c2, e, by rw [e1, putrt_mbrOf R s1 s q hs, hm1], by rw [e2, hm2]⟩
          · cases hs : putrt R s2 (some q) with
            | none => simp [hs] at hq
            | some s =>
              simp only [hs, Option.map_some', Option.some.injEq] at hq
              subst hq
              obtain ⟨c1, c2, e, e1, e2⟩ := ih s1 s n1 (putrt_isNode R s2 s _ hs) h
              exact ⟨c1, c2, e, by rw [e1, hm1], by rw [e2, putrt_mbrOf R s2 s q hs, hm2]⟩

/-- The rectangle of a node is not touched by any run of `subrt`. -/
theorem subrtRun_mbrOf (R : rectlib) (t t1 : rtree) (b : Bool) (h : subrtRun R t t1 b) :
    t1.mbrOf = t.mbrOf := by
  cases h with
  | keep pa mbr s1 s2 hex => rfl
  | split pa mbr s1 s2 sq M N j1 j2 pa1 mbr1 leaf1 c1 c2 a1 a2 f1 f2 hs hgt hre r1 r2 =>
    obtain ⟨d1, d2, e, _, _⟩ := reinsert_children_mbr R pa pa mbr _ _ _
      (seedChild_isNode j1 M) (seedChild_isNode j2 N) hre
    cases e
    rfl
  | branch pa mbr s1 s2 a1 a2 f1 f2 r1 r2 => rfl

/-- What a run that splits a leaf looks like: the seeds are those of `sdevrt`, the state
after the reinsertion loop and the tree returned both carry the two seed boxes. -/
theorem subrtRun_split_inv (R : rectlib) (pa : parray) (mbr : rect) (s1 s2 t1 : rtree)
    (h : subrtRun R (node pa mbr true s1 s2) t1 true) :
    ∃ sq M N, sdevrt (node pa mbr true s1 s2) (some zeroPoint) (some zeroPoint) =
        some (sq, some M, some N) ∧ sq > maxsdev ^ 2 ∧
      (∃ j1 j2 c1 c2, reinsert R (node pa mbr false (seedChild j1 M) (seedChild j2 N)) pa =
          some (node pa mbr false c1 c2) ∧
        c1.mbrOf = some ⟨M, M⟩ ∧ c2.mbrOf = some ⟨N, N⟩) ∧
      ∃ a1 a2, t1 = node [] mbr false a1 a2 ∧
        a1.mbrOf = some ⟨M, M⟩ ∧ a2.mbrOf = some ⟨N, N⟩ := by
  cases h with
  | split _ _ _ _ sq M N j1 j2 pa1 mbr1 leaf1 c1 c2 a1 a2 f1 f2 hs hgt hre r1 r2 =>
    obtain ⟨d1, d2, e, e1, e2⟩ := reinsert_children_mbr R pa pa mbr _ _ _
      (seedChild_isNode j1 M) (seedChild_isNode j2 N) hre
    cases e
    rw [seedChild_mbrOf] at e1 e2
    exact ⟨sq, M, N, hs, hgt, ⟨j1, j2, c1, c2, hre, e1, e2⟩, a1, a2, rfl,
      by rw [subrtRun_mbrOf R c1 a1 f1 r1, e1], by rw [subrtRun_mbrOf R c2 a2 f2 r2, e2]⟩

/-- C5, at the leaf of the scenario when the two blocks that `malloc` hands out for the
children are not zero-filled. `subrt` never writes the `pa` field of a new child, so each
child starts with the stray point its block holds: the tree returned holds six points where
the leaf held four, with (1,1,1) and (100,100,100) twice each. With zero-filled blocks the
same call returns the tree of the scenario. -/
theorem subrt_stray_points :
    exceeds scenarioLeaf = true ∧
    subrtRun boxlib scenarioLeaf strayTree true ∧
    countrt scenarioLeaf = 4 ∧ countrt strayTree = 6 ∧
    (leafPoints scenarioLeaf).count ⟨1, 1, 1⟩ = 1 ∧ (leafPoints strayTree).count ⟨1, 1, 1⟩ = 2 ∧
    subrt boxlib 2 scenarioLeaf = .ok (scenarioTree, true) := by
  refine ⟨by decide!, ?_, by decide, by decide, by decide, by decide, by decide!⟩
  exact subrtRun.split scenarioPoints ⟨zeroPoint, zeroPoint⟩ null null (7355 / 3)
    ⟨100, 100, 100⟩ ⟨0, 0, 0⟩ strayBlockA strayBlockB scenarioPoints
    ⟨zeroPoint, zeroPoint⟩ false
    (node [⟨1, 1, 1⟩, ⟨0, 0, 0⟩, ⟨1, 1, 1⟩, ⟨2, 2, 2⟩]
      ⟨⟨100, 100, 100⟩, ⟨100, 100, 100⟩⟩ true null null)
    (node [⟨100, 100, 100⟩, ⟨100, 100, 100⟩] ⟨⟨0, 0, 0⟩, ⟨0, 0, 0⟩⟩ true null null)
    _ _ false false (by decide!) (by decide!) (by decide!)
    (subrtRun.keep _ _ _ _ (by decide!)) (subrtRun.keep _ _ _ _ (by decide!))

/-- With a null pointer in the unwritten field, `mergepa` returns the elements of `a`
followed by those of `b`, whatever the new block held, and `a` and `b` are as before. -/
theorem mergepaCall_nil (junk : Nat → point) (a b : parray) :
    mergepaCall rawptr.nil junk a b = some (a, b, mergepa a b) := by
  have h : memcpyAt (memcpyAt ((List.range (a.length + b.length)).map junk) 0 a a.length)
      a.length b b.length = a ++ b := by
    simp only [memcpyAt, List.take_zero, List.nil_append, Nat.zero_add, List.take_length]
    rw [List.take_left' rfl, List.drop_append_eq_append_drop]
    simp
  simp only [mergepaCall, h, mergepa]

/-- With anything else in the unwritten field, `mergepa` has no result. -/
theorem mergepaCall_wild_none (junk : Nat → point) (a b : parray) :
    mergepaCall rawptr.wild junk a b = none := rfl

/-- C11, at the containers [(1,1,1)] and [(2,2,2)] when the header block that `malloc` hands
out is not zero-filled. `mergepa` passes the field `sumpa->points`, which it never wrote, to
`realloc`: the call has no result. It returns the concatenation only when the field happens
to hold the null pointer. -/
theorem mergepaCall_wild :
    mergepaCall rawptr.wild diagonalBatch [⟨1, 1, 1⟩] [⟨2, 2, 2⟩] = none ∧
    mergepaCall rawptr.nil diagonalBatch [⟨1, 1, 1⟩] [⟨2, 2, 2⟩] =
      some ([⟨1, 1, 1⟩], [⟨2, 2, 2⟩], [⟨1, 1, 1⟩, ⟨2, 2, 2⟩]) := by
  refine ⟨rfl, by decide!⟩

/-- On a leaf with at least two points `sdevrt` hands back a stored point of greatest
height and a stored point of least height, whatever the dispersion it finds. -/
theorem sdevrt_seeds (pa : parray) (mbr : rect) (s1 s2 : rtree) (hlen : 2 ≤ pa.length) :
    ∃ sq M N, sdevrt (node pa mbr true s1 s2) (some zeroPoint) (some zeroPoint) =
        some (sq, some M, some N) ∧ M ∈ pa ∧ N ∈ pa ∧
      (∀ q ∈ pa, N.z ≤ q.z ∧ q.z ≤ M.z) := by
  cases pa with
  | nil => simp at hlen
  | cons first rest =>
    have hs := sdevrt_large first rest mbr s1 s2 zeroPoint zeroPoint hlen
    obtain ⟨hM, hmax⟩ := sdev_max_spec first rest
    obtain ⟨hN, hmin⟩ := sdev_min_spec first rest
    exact ⟨_, _, _, hs, hM, hN, fun q hq => ⟨hmin q hq, hmax q hq⟩⟩

/-- C13. For every leaf with at least two points, which every leaf that `subrt` splits is:
the seeds `M` and `N` that `sdevrt` hands back are stored in the leaf, and no stored point is
higher than `M` or lower than `N`; whatever the blocks for the two children hold, once the
reinsertion loop is through the first child has the rectangle with both corners `M` and the
second the rectangle with both corners `N`; with zero-filled blocks the loop does get
through; and in every run of `subrt` that splits the leaf, the two children of the tree
returned have these rectangles. -/
theorem subrt_seed_boxes (R : rectlib) (pa : parray) (mbr : rect) (s1 s2 : rtree)
    (hlen : 2 ≤ pa.length) :
    ∃ sq M N, sdevrt (node pa mbr true s1 s2) (some zeroPoint) (some zeroPoint) =
        some (sq, some M, some N) ∧
      M ∈ pa ∧ N ∈ pa ∧ (∀ q ∈ pa, N.z ≤ q.z ∧ q.z ≤ M.z) ∧
      (∀ j1 j2 t1, reinsert R (node pa mbr false (seedChild j1 M) (seedChild j2 N)) pa =
          some t1 →
        ∃ c1 c2, t1 = node pa mbr false c1 c2 ∧
          c1.mbrOf = some ⟨M, M⟩ ∧ c2.mbrOf = some ⟨N, N⟩) ∧
      (∃ t1, reinsert R (node pa mbr false (seedChild zeroBlock M) (seedChild zeroBlock N))
          pa = some t1) ∧
      (∀ t1, subrtRun R (node pa mbr true s1 s2) t1 true →
        ∃ a1 a2, t1 = node [] mbr false a1 a2 ∧
          a1.mbrOf = some ⟨M, M⟩ ∧ a2.mbrOf = some ⟨N, N⟩) := by
  obtain ⟨sq, M, N, hs, hM, hN, hall⟩ := sdevrt_seeds pa mbr s1 s2 hlen
  refine ⟨sq, M, N, hs, hM, hN, hall, ?_, ?_, ?_⟩
  · intro j1 j2 t1 hre
    obtain ⟨c1, c2, e, e1, e2⟩ := reinsert_children_mbr R pa pa mbr _ _ t1
      (seedChild_isNode j1 M) (seedChild_isNode j2 N) hre
    exact ⟨c1, c2, e, by rw [e1]; rfl, by rw [e2]; rfl⟩
  · exact ⟨_, reinsert_childless R pa pa [] [] mbr ⟨M, M⟩ ⟨N, N⟩ false false⟩
  · intro t1 h
    obtain ⟨sq2, M2, N2, hs2, _, _, a1, a2, e, e1, e2⟩ :=
      subrtRun_split_inv R pa mbr s1 s2 t1 h
    rw [hs] at hs2
    cases hs2
    exact ⟨a1, a2, e, e1, e2⟩

/-- The scenario of C13: the leaf holding the four points; the seeds are (100,100,100) and
(0,0,0), and `subrt` does split the leaf. -/
theorem subrt_seed_boxes_witness :
    2 ≤ scenarioPoints.length ∧
    subrtRun boxlib scenarioLeaf scenarioTree true ∧
    sdevrt scenarioLeaf (some zeroPoint) (some zeroPoint) =
      some (7355 / 3, some ⟨100, 100, 100⟩, some ⟨0, 0, 0⟩) ∧
    ∃ sq M N, sdevrt scenarioLeaf (some zeroPoint) (some zeroPoint) =
        some (sq, some M, some N) ∧
      M ∈ scenarioPoints ∧ N ∈ scenarioPoints ∧
      (∀ q ∈ scenarioPoints, N.z ≤ q.z ∧ q.z ≤ M.z) ∧
      (∀ j1 j2 t1, reinsert boxlib (node scenarioPoints ⟨zeroPoint, zeroPoint⟩ false
            (seedChild j1 M) (seedChild j2 N)) scenarioPoints = some t1 →
        ∃ c1 c2, t1 = node scenarioPoints ⟨zeroPoint, zeroPoint⟩ false c1 c2 ∧
          c1.mbrOf = some ⟨M, M⟩ ∧ c2.mbrOf = some ⟨N, N⟩) ∧
      (∃ t1, reinsert boxlib (node scenarioPoints ⟨zeroPoint, zeroPoint⟩ false
          (seedChild zeroBlock M) (seedChild zeroBlock N)) scenarioPoints = some t1) ∧
      (∀ t1, subrtRun boxlib scenarioLeaf t1 true →
        ∃ a1 a2, t1 = node [] ⟨zeroPoint, zeroPoint⟩ false a1 a2 ∧
          a1.mbrOf = some ⟨M, M⟩ ∧ a2.mbrOf = some ⟨N, N⟩) :=
  ⟨by decide, subrt_run boxlib 2 scenarioLeaf scenarioTree true (by decide!), by decide!,
    subrt_seed_boxes boxlib scenarioPoints ⟨zeroPoint, zeroPoint⟩ null null (by decide)⟩

end Rcc
